import Mathlib

/-!
Verification of the go-kvfile key/value archive format: a shallow embedding
of the reader (`kv.go`, current hardened revision), the writers (`write.go`,
current `WriteIndex`-based revision), and the generated `IndexEntry`
protobuf codec (`kv.pb.go`), together with proofs of the specification
claims about them.

Bytes are modelled as `List Nat`; writer-produced bytes are below 256 by
construction.  Go `uint64` arithmetic is modelled as `Nat` with explicit
`% 2 ^ 64` where the code can wrap, and checked conversions mirror the
source's explicit guards.  Fallible operations return `Except KvError`;
the distinct error constructors correspond to the distinct error returns
of the source.
-/

set_option maxRecDepth 8192

namespace Kvfile

/-- Error taxonomy of the reader/writer, one constructor per error site kind. -/
inductive KvError : Type
  /-- an I/O error from the underlying `ReadAt` source (includes short reads) -/
  | ioError
  /-- file is non-empty but shorter than 8 bytes (`ErrFileSizeTooSmallForIndexCount`) -/
  | trailerTooSmall
  /-- a checked integer conversion or addition overflowed -/
  | overflow
  /-- the index entry count does not fit the file -/
  | countTooLarge
  /-- a framing varint failed to decode -/
  | invalidVarint
  /-- a decoded index entry length exceeds `maxIndexEntrySize` -/
  | entryTooLarge
  /-- an index entry length is larger than its own position -/
  | entryUnderflow
  /-- the index entry payload failed to decode -/
  | unmarshalFailed
  /-- an entry's value offset is greater than the entry's own position -/
  | offsetBeyondEntry
  /-- out-of-bounds read of an index entry -/
  | outOfBounds
  /-- a value size exceeds `maxValueSize` -/
  | valueTooLarge
  /-- a value range ends beyond the positions-table start -/
  | valueOutOfBounds
  /-- duplicate key detected while writing the index -/
  | duplicateKey
  /-- operation on an already-closed progressive writer -/
  | writerClosed
  deriving DecidableEq, Repr

/-- `maxIndexEntrySize` from kv.go: maximum index entry size in bytes. -/
def maxIndexEntrySize : Nat := 2048

/-- `maxValueSize` from kv.go (current revision): 1e9. -/
def maxValueSize : Nat := 1000000000

/-- `maxValueSize` of the earliest revision (src/unnamed/part_006):
`var maxValueSize uint32 = 1e8`. -/
def legacyMaxValueSize : Nat := 100000000

/-- Go `math.MaxInt64` (also `math.MaxInt` on 64-bit platforms). -/
def maxInt64 : Nat := 2 ^ 63 - 1

/-- Go `io.ReaderAt.ReadAt` on an in-memory byte sequence: read exactly
`len` bytes at offset `off`; a short read surfaces as an error (`none`),
as every call site in kv.go treats a non-nil error as failure. -/
def readAt (file : List Nat) (off len : Nat) : Option (List Nat) :=
  if off + len ≤ file.length then some ((file.drop off).take len) else none

/-- Append a protobuf base-128 varint (protowire/protobuf-go-lite
`AppendVarint`): low 7 bits first, continuation bit 0x80 on all but the
last byte. -/
def appendVarint (v : Nat) : List Nat :=
  if h : v < 128 then [v]
  else (v % 128 + 128) :: appendVarint (v / 128)
  decreasing_by exact Nat.div_lt_self (by omega) (by omega)

/-- `SizeOfVarint`: the byte length of the varint encoding. -/
def sizeOfVarint (v : Nat) : Nat :=
  if h : v < 128 then 1 else 1 + sizeOfVarint (v / 128)
  decreasing_by exact Nat.div_lt_self (by omega) (by omega)

/-- Loop of protobuf-go-lite `ConsumeVarint`: at most 10 bytes, the tenth
byte must be below 2 (64-bit overflow check), continuation bit 0x80. -/
def consumeVarintLoop : List Nat → Nat → Nat → Option (Nat × Nat)
  | [], _, _ => none
  | b :: rest, i, acc =>
    if b < 128 then
      if i = 9 ∧ 2 ≤ b then none
      else some (acc + b * 2 ^ (7 * i), i + 1)
    else
      if i = 9 then none
      else consumeVarintLoop rest (i + 1) (acc + (b - 128) * 2 ^ (7 * i))

/-- Protobuf-go-lite `ConsumeVarint`: returns the decoded value and the
number of bytes consumed, or `none` on truncation/overflow (the negative
return codes of the Go function). -/
def consumeVarint (l : List Nat) : Option (Nat × Nat) :=
  consumeVarintLoop l 0 0

/-- The varint reader inlined into the generated `UnmarshalVT` of
kv.pb.go: a shift-accumulate loop failing once the shift reaches 64
(that is, past the tenth byte), value truncated to 64 bits. -/
def pbReadVarintLoop : List Nat → Nat → Nat → Option (Nat × Nat)
  | [], _, _ => none
  | b :: rest, i, acc =>
    if i ≥ 10 then none
    else
      let acc' := acc + (b % 128) * 2 ^ (7 * i) % 2 ^ 64
      if b < 128 then some (acc', i + 1)
      else pbReadVarintLoop rest (i + 1) acc'

/-- Varint read of the generated parser, starting at shift 0. -/
def pbReadVarint (l : List Nat) : Option (Nat × Nat) :=
  pbReadVarintLoop l 0 0

/-- Go `binary.LittleEndian.AppendUint64`: eight little-endian bytes. -/
def putUint64LE (v : Nat) : List Nat :=
  [v % 256, v / 256 % 256, v / 256 ^ 2 % 256, v / 256 ^ 3 % 256,
   v / 256 ^ 4 % 256, v / 256 ^ 5 % 256, v / 256 ^ 6 % 256, v / 256 ^ 7 % 256]

/-- Go `binary.LittleEndian.Uint64` on a buffer of (at least) 8 bytes. -/
def getUint64LE : List Nat → Nat
  | b0 :: b1 :: b2 :: b3 :: b4 :: b5 :: b6 :: b7 :: _ =>
    b0 + b1 * 256 + b2 * 256 ^ 2 + b3 * 256 ^ 3 + b4 * 256 ^ 4 +
      b5 * 256 ^ 5 + b6 * 256 ^ 6 + b7 * 256 ^ 7
  | _ => 0

/-- Go `bytes.Compare`: byte-lexicographic three-way comparison. -/
def bytesCompare : List Nat → List Nat → Ordering
  | [], [] => .eq
  | [], _ :: _ => .lt
  | _ :: _, [] => .gt
  | a :: as, b :: bs =>
    if a < b then .lt else if b < a then .gt else bytesCompare as bs

/-- Go `bytes.HasPrefix s pre`: `s` starts with the bytes of `pre`. -/
def goHasPrefix (s pre : List Nat) : Bool :=
  decide (pre.length ≤ s.length) && s.take pre.length == pre

theorem appendVarint_small {v : Nat} (h : v < 128) : appendVarint v = [v] := by
  rw [appendVarint]
  exact dif_pos h

theorem appendVarint_step {v : Nat} (h : ¬v < 128) :
    appendVarint v = (v % 128 + 128) :: appendVarint (v / 128) := by
  conv_lhs => rw [appendVarint]
  exact dif_neg h

theorem sizeOfVarint_small {v : Nat} (h : v < 128) : sizeOfVarint v = 1 := by
  rw [sizeOfVarint]
  exact dif_pos h

theorem sizeOfVarint_step {v : Nat} (h : ¬v < 128) :
    sizeOfVarint v = 1 + sizeOfVarint (v / 128) := by
  conv_lhs => rw [sizeOfVarint]
  exact dif_neg h

theorem pow63Lit : (2 : Nat) ^ (7 * 9) = 9223372036854775808 := by norm_num

theorem pow64Lit : (2 : Nat) ^ 64 = 18446744073709551616 := by norm_num

theorem pow63Simple : (2 : Nat) ^ 63 = 9223372036854775808 := by norm_num

theorem appendVarint_ne_nil (v : Nat) : appendVarint v ≠ [] := by
  by_cases h : v < 128
  · rw [appendVarint_small h]; simp
  · rw [appendVarint_step h]; simp

theorem length_appendVarint (v : Nat) : (appendVarint v).length = sizeOfVarint v := by
  induction v using Nat.strong_induction_on with
  | _ v ih =>
    by_cases h : v < 128
    · rw [appendVarint_small h, sizeOfVarint_small h]; rfl
    · rw [appendVarint_step h, sizeOfVarint_step h, List.length_cons,
        ih (v / 128) (Nat.div_lt_self (by omega) (by omega))]
      omega

theorem sizeOfVarint_pos (v : Nat) : 1 ≤ sizeOfVarint v := by
  by_cases h : v < 128
  · rw [sizeOfVarint_small h]
  · rw [sizeOfVarint_step h]; omega

theorem appendVarint_lt_256 (v : Nat) : ∀ b ∈ appendVarint v, b < 256 := by
  induction v using Nat.strong_induction_on with
  | _ v ih =>
    by_cases h : v < 128
    · rw [appendVarint_small h]
      intro b hb; simp at hb; omega
    · rw [appendVarint_step h]
      intro b hb
      simp only [List.mem_cons] at hb
      rcases hb with hb | hb
      · have := Nat.mod_lt v (y := 128) (by omega); omega
      · exact ih (v / 128) (Nat.div_lt_self (by omega) (by omega)) b hb

theorem sizeOfVarint_le_ten (v : Nat) (hv : v < 2 ^ 64) : sizeOfVarint v ≤ 10 := by
  have h : ∀ k v, v < 2 ^ (7 * (k + 1)) → sizeOfVarint v ≤ k + 1 := by
    intro k
    induction k with
    | zero =>
      intro v hv
      norm_num at hv
      rw [sizeOfVarint_small hv]
    | succ k ih =>
      intro v hv
      by_cases hsm : v < 128
      · rw [sizeOfVarint_small hsm]; omega
      · rw [sizeOfVarint_step hsm]
        have hd : v / 128 < 2 ^ (7 * (k + 1)) := by
          rw [Nat.div_lt_iff_lt_mul (by norm_num)]
          calc v < 2 ^ (7 * (k + 1 + 1)) := hv
            _ = 2 ^ (7 * (k + 1)) * 128 := by ring
        have := ih (v / 128) hd
        omega
  exact h 9 v (by norm_num at hv ⊢; omega)

theorem consumeVarintLoop_append (v : Nat) :
    ∀ (i acc : Nat) (rest : List Nat), i < 10 → v * 2 ^ (7 * i) < 2 ^ 64 →
    consumeVarintLoop (appendVarint v ++ rest) i acc =
      some (acc + v * 2 ^ (7 * i), i + sizeOfVarint v) := by
  induction v using Nat.strong_induction_on with
  | _ v ih =>
    intro i acc rest hi hv
    by_cases hlt : v < 128
    · rw [appendVarint_small hlt, sizeOfVarint_small hlt]
      simp only [List.cons_append, List.nil_append, consumeVarintLoop]
      rw [if_pos hlt]
      have hnot : ¬(i = 9 ∧ 2 ≤ v) := by
        rintro ⟨rfl, h2⟩
        have hup : 2 * 2 ^ (7 * 9) ≤ v * 2 ^ (7 * 9) := Nat.mul_le_mul_right _ h2
        rw [pow63Lit] at hup hv
        rw [pow64Lit] at hv
        omega
      rw [if_neg hnot]
    · rw [appendVarint_step hlt, sizeOfVarint_step hlt]
      simp only [List.cons_append, consumeVarintLoop]
      rw [if_neg (by omega : ¬(v % 128 + 128 < 128))]
      have hi9 : i ≠ 9 := by
        intro h
        subst h
        have hup : 128 * 2 ^ (7 * 9) ≤ v * 2 ^ (7 * 9) :=
          Nat.mul_le_mul_right _ (by omega)
        rw [pow63Lit] at hup hv
        rw [pow64Lit] at hv
        omega
      rw [if_neg hi9]
      have harith : v % 128 + 128 - 128 = v % 128 := by omega
      rw [harith]
      have hd : v / 128 * 2 ^ (7 * (i + 1)) < 2 ^ 64 := by
        have hle : v / 128 * 2 ^ (7 * (i + 1)) ≤ v * 2 ^ (7 * i) := by
          have h1 : v / 128 * 128 ≤ v := Nat.div_mul_le_self v 128
          calc v / 128 * 2 ^ (7 * (i + 1)) = v / 128 * 128 * 2 ^ (7 * i) := by ring
            _ ≤ v * 2 ^ (7 * i) := Nat.mul_le_mul_right _ h1
        omega
      simp only [List.append_eq]
      rw [ih (v / 128) (Nat.div_lt_self (by omega) (by omega)) (i + 1)
        (acc + v % 128 * 2 ^ (7 * i)) rest (by omega) hd]
      have hsum : acc + v % 128 * 2 ^ (7 * i) + v / 128 * 2 ^ (7 * (i + 1)) =
          acc + v * 2 ^ (7 * i) := by
        have hv128 : v % 128 + 128 * (v / 128) = v := Nat.mod_add_div v 128
        calc acc + v % 128 * 2 ^ (7 * i) + v / 128 * 2 ^ (7 * (i + 1))
            = acc + (v % 128 + 128 * (v / 128)) * 2 ^ (7 * i) := by ring
          _ = acc + v * 2 ^ (7 * i) := by rw [hv128]
      rw [hsum]
      congr 2
      omega

theorem consumeVarint_append (v : Nat) (rest : List Nat) (hv : v < 2 ^ 64) :
    consumeVarint (appendVarint v ++ rest) = some (v, sizeOfVarint v) := by
  have := consumeVarintLoop_append v 0 0 rest (by omega) (by simpa using hv)
  simpa [consumeVarint] using this

theorem pbReadVarintLoop_append (v : Nat) :
    ∀ (i acc : Nat) (rest : List Nat), i < 10 → v * 2 ^ (7 * i) < 2 ^ 64 →
    pbReadVarintLoop (appendVarint v ++ rest) i acc =
      some (acc + v * 2 ^ (7 * i), i + sizeOfVarint v) := by
  induction v using Nat.strong_induction_on with
  | _ v ih =>
    intro i acc rest hi hv
    by_cases hlt : v < 128
    · rw [appendVarint_small hlt, sizeOfVarint_small hlt]
      simp only [List.cons_append, List.nil_append, pbReadVarintLoop]
      rw [if_neg (by omega : ¬(i ≥ 10))]
      simp only [Nat.mod_eq_of_lt hlt]
      rw [if_pos hlt]
      rw [Nat.mod_eq_of_lt hv]
    · rw [appendVarint_step hlt, sizeOfVarint_step hlt]
      simp only [List.cons_append, pbReadVarintLoop]
      rw [if_neg (by omega : ¬(i ≥ 10))]
      have hm : (v % 128 + 128) % 128 = v % 128 := by omega
      rw [hm]
      rw [if_neg (by omega : ¬(v % 128 + 128 < 128))]
      have hterm : v % 128 * 2 ^ (7 * i) < 2 ^ 64 := by
        have hle : v % 128 * 2 ^ (7 * i) ≤ v * 2 ^ (7 * i) :=
          Nat.mul_le_mul_right _ (Nat.mod_le v 128)
        omega
      rw [Nat.mod_eq_of_lt hterm]
      have hi1 : i + 1 < 10 := by
        by_contra hcon
        have hi9 : i = 9 := by omega
        subst hi9
        have hup : 128 * 2 ^ (7 * 9) ≤ v * 2 ^ (7 * 9) :=
          Nat.mul_le_mul_right _ (by omega)
        rw [pow63Lit] at hup hv
        rw [pow64Lit] at hv
        omega
      have hd : v / 128 * 2 ^ (7 * (i + 1)) < 2 ^ 64 := by
        have hle : v / 128 * 2 ^ (7 * (i + 1)) ≤ v * 2 ^ (7 * i) := by
          have h1 : v / 128 * 128 ≤ v := Nat.div_mul_le_self v 128
          calc v / 128 * 2 ^ (7 * (i + 1)) = v / 128 * 128 * 2 ^ (7 * i) := by ring
            _ ≤ v * 2 ^ (7 * i) := Nat.mul_le_mul_right _ h1
        omega
      simp only [List.append_eq]
      rw [ih (v / 128) (Nat.div_lt_self (by omega) (by omega)) (i + 1)
        (acc + v % 128 * 2 ^ (7 * i)) rest hi1 hd]
      have hsum : acc + v % 128 * 2 ^ (7 * i) + v / 128 * 2 ^ (7 * (i + 1)) =
          acc + v * 2 ^ (7 * i) := by
        have hv128 : v % 128 + 128 * (v / 128) = v := Nat.mod_add_div v 128
        calc acc + v % 128 * 2 ^ (7 * i) + v / 128 * 2 ^ (7 * (i + 1))
            = acc + (v % 128 + 128 * (v / 128)) * 2 ^ (7 * i) := by ring
          _ = acc + v * 2 ^ (7 * i) := by rw [hv128]
      rw [hsum]
      congr 2
      omega

theorem pbReadVarint_append (v : Nat) (rest : List Nat) (hv : v < 2 ^ 64) :
    pbReadVarint (appendVarint v ++ rest) = some (v, sizeOfVarint v) := by
  have := pbReadVarintLoop_append v 0 0 rest (by omega) (by simpa using hv)
  simpa [pbReadVarint] using this

theorem length_putUint64LE (v : Nat) : (putUint64LE v).length = 8 := by
  simp [putUint64LE]

theorem getUint64LE_putUint64LE (v : Nat) (rest : List Nat) :
    getUint64LE (putUint64LE v ++ rest) = v % 2 ^ 64 := by
  simp only [putUint64LE, List.cons_append, List.nil_append, getUint64LE]
  omega

theorem putUint64LE_lt_256 (v : Nat) : ∀ b ∈ putUint64LE v, b < 256 := by
  intro b hb
  simp only [putUint64LE, List.mem_cons, List.not_mem_nil, or_false] at hb
  rcases hb with h | h | h | h | h | h | h | h <;>
    (subst h; exact Nat.mod_lt _ (by norm_num))


theorem bytesCompare_eq_iff : ∀ (a b : List Nat), bytesCompare a b = .eq ↔ a = b
  | [], [] => by simp [bytesCompare]
  | [], _ :: _ => by simp [bytesCompare]
  | _ :: _, [] => by simp [bytesCompare]
  | x :: xs, y :: ys => by
    simp only [bytesCompare, List.cons.injEq]
    by_cases h1 : x < y
    · rw [if_pos h1]
      constructor
      · intro hc; exact Ordering.noConfusion hc
      · rintro ⟨rfl, -⟩; omega
    · rw [if_neg h1]
      by_cases h2 : y < x
      · rw [if_pos h2]
        constructor
        · intro hc; exact Ordering.noConfusion hc
        · rintro ⟨rfl, -⟩; omega
      · rw [if_neg h2, bytesCompare_eq_iff xs ys]
        have hxy : x = y := by omega
        simp [hxy]

theorem bytesCompare_lt_iff : ∀ (a b : List Nat),
    bytesCompare a b = .lt ↔ List.Lex (· < ·) a b
  | [], [] => by
    simp only [bytesCompare]
    constructor
    · intro hc; exact Ordering.noConfusion hc
    · intro hc; cases hc
  | [], y :: ys => by
    simp only [bytesCompare]
    constructor
    · intro _; exact List.Lex.nil
    · intro _; trivial
  | x :: xs, [] => by
    simp only [bytesCompare]
    constructor
    · intro hc; exact Ordering.noConfusion hc
    · intro hc; cases hc
  | x :: xs, y :: ys => by
    simp only [bytesCompare]
    by_cases h1 : x < y
    · rw [if_pos h1]
      constructor
      · intro _; exact List.Lex.rel h1
      · intro _; rfl
    · rw [if_neg h1]
      by_cases h2 : y < x
      · rw [if_pos h2]
        constructor
        · intro hc; exact Ordering.noConfusion hc
        · intro hc
          cases hc with
          | rel h => omega
          | cons h => omega
      · rw [if_neg h2]
        have hxy : x = y := by omega
        subst hxy
        rw [bytesCompare_lt_iff xs ys]
        constructor
        · exact List.Lex.cons
        · intro hc
          cases hc with
          | rel h => omega
          | cons h => exact h

theorem bytesCompare_swap : ∀ (a b : List Nat),
    bytesCompare b a = (bytesCompare a b).swap
  | [], [] => by simp [bytesCompare, Ordering.swap]
  | [], _ :: _ => by simp [bytesCompare, Ordering.swap]
  | _ :: _, [] => by simp [bytesCompare, Ordering.swap]
  | x :: xs, y :: ys => by
    simp only [bytesCompare]
    by_cases h1 : x < y
    · simp only [if_pos h1, if_neg (by omega : ¬y < x)]
      rfl
    · by_cases h2 : y < x
      · simp only [if_pos h2, if_neg h1]
        rfl
      · simp only [if_neg h1, if_neg h2]
        exact bytesCompare_swap xs ys

theorem bytesCompare_gt_iff (a b : List Nat) :
    bytesCompare a b = .gt ↔ List.Lex (· < ·) b a := by
  rw [← bytesCompare_lt_iff b a, bytesCompare_swap b a]
  cases bytesCompare b a <;> decide

theorem bytesCompare_lt_iff_lt (a b : List Nat) : bytesCompare a b = .lt ↔ a < b :=
  bytesCompare_lt_iff a b

theorem bytesCompare_gt_iff_lt (a b : List Nat) : bytesCompare a b = .gt ↔ b < a :=
  bytesCompare_gt_iff a b

theorem goHasPrefix_iff (s pre : List Nat) : goHasPrefix s pre = true ↔ pre <+: s := by
  constructor
  · intro h
    simp only [goHasPrefix, Bool.and_eq_true, beq_iff_eq, decide_eq_true_eq] at h
    rw [List.prefix_iff_eq_take]
    exact h.2.symm
  · intro h
    simp only [goHasPrefix, Bool.and_eq_true, beq_iff_eq, decide_eq_true_eq]
    exact ⟨h.length_le, (List.prefix_iff_eq_take.mp h).symm⟩

theorem not_lex_of_pre : ∀ (p k : List Nat), p <+: k → ¬List.Lex (· < ·) k p
  | [], _, _, hlex => by cases hlex
  | x :: p', k, hpre, hlex => by
    obtain ⟨t, rfl⟩ := hpre
    rw [List.cons_append] at hlex
    cases hlex with
    | rel h => exact absurd h (lt_irrefl x)
    | cons h => exact not_lex_of_pre p' (p' ++ t) ⟨t, rfl⟩ h

theorem lex_all_of_gt : ∀ (p a : List Nat), ¬p <+: a → List.Lex (· < ·) p a →
    ∀ w, p <+: w → List.Lex (· < ·) w a
  | [], a, hnp, _, _, _ => absurd (List.nil_prefix) hnp
  | x :: p', a, hnp, hlex, w, hw => by
    cases hlex with
    | rel h =>
      obtain ⟨t, rfl⟩ := hw
      rw [List.cons_append]
      exact List.Lex.rel h
    | cons h =>
      obtain ⟨t, rfl⟩ := hw
      rename_i a'
      have hnp' : ¬p' <+: a' := by
        intro hc
        exact hnp (List.cons_prefix_cons.mpr ⟨rfl, hc⟩)
      rw [List.cons_append]
      exact List.Lex.cons (lex_all_of_gt p' a' hnp' h (p' ++ t) ⟨t, rfl⟩)

theorem pbReadVarintLoop_lt_n : ∀ (l : List Nat) (i acc v n : Nat),
    pbReadVarintLoop l i acc = some (v, n) → i < n := by
  intro l
  induction l with
  | nil => intro i acc v n h; simp [pbReadVarintLoop] at h
  | cons b rest ih =>
    intro i acc v n h
    simp only [pbReadVarintLoop] at h
    by_cases h10 : i ≥ 10
    · rw [if_pos h10] at h; exact absurd h (by simp)
    · rw [if_neg h10] at h
      by_cases hb : b < 128
      · rw [if_pos hb] at h
        simp only [Option.some.injEq, Prod.mk.injEq] at h
        omega
      · rw [if_neg hb] at h
        have := ih (i + 1) _ v n h
        omega

theorem pbReadVarint_pos {l : List Nat} {v n : Nat}
    (h : pbReadVarint l = some (v, n)) : 1 ≤ n := by
  have := pbReadVarintLoop_lt_n l 0 0 v n h
  omega

/-- One iteration chain of protobuf-go-lite `Skip`: `pos` is the cursor,
`depth` the group nesting depth; returns the cursor one full field later.
The length of a length-delimited payload is not bounds-checked here, as in
the source (the caller checks the returned count against the buffer). -/
def pbSkipLoop : Nat → List Nat → Nat → Nat → Option Nat
  | 0, _, _, _ => none
  | fuel + 1, l, pos, depth =>
    match pbReadVarint (l.drop pos) with
    | none => none
    | some (wire, n) =>
      let wireType := wire % 8
      let afterTag := pos + n
      let stepEnd : Option Nat :=
        if wireType = 0 then
          match pbReadVarint (l.drop afterTag) with
          | none => none
          | some (_, m) => some (afterTag + m)
        else if wireType = 1 then some (afterTag + 8)
        else if wireType = 2 then
          match pbReadVarint (l.drop afterTag) with
          | none => none
          | some (len, m) =>
            if 2 ^ 63 ≤ len then none else some (afterTag + m + len)
        else if wireType = 3 then some afterTag
        else if wireType = 4 then if depth = 0 then none else some afterTag
        else if wireType = 5 then some (afterTag + 4)
        else none
      match stepEnd with
      | none => none
      | some p =>
        let depth' := if wireType = 3 then depth + 1
                      else if wireType = 4 then depth - 1 else depth
        if depth' = 0 then some p
        else pbSkipLoop fuel l p depth'

/-- protobuf-go-lite `Skip`: the byte length of one complete field (tag
and payload, groups included) at the head of `l`; `none` when malformed. -/
def pbSkip (l : List Nat) : Option Nat :=
  pbSkipLoop (l.length + 1) l 0 0

theorem pbSkipLoop_lt : ∀ (fuel : Nat) (l : List Nat) (pos depth p : Nat),
    pbSkipLoop fuel l pos depth = some p → pos < p := by
  intro fuel
  induction fuel with
  | zero => intro l pos depth p h; simp [pbSkipLoop] at h
  | succ fuel ih =>
    intro l pos depth p h
    rw [pbSkipLoop] at h
    cases hv : pbReadVarint (l.drop pos) with
    | none => rw [hv] at h; exact absurd h (by simp)
    | some vn =>
      obtain ⟨wire, n⟩ := vn
      rw [hv] at h
      have hn : 1 ≤ n := pbReadVarint_pos hv
      simp only at h
      split at h
      · exact absurd h (by simp)
      · rename_i p' hse
        have hq : pos < p' := by
          clear h
          repeat' split at hse
          all_goals simp only [Option.some.injEq, reduceCtorEq] at hse
          all_goals omega
        repeat' split at h
        all_goals
          first
            | (simp only [Option.some.injEq] at h; omega)
            | exact lt_trans hq (ih l p' _ p h)

theorem pbSkip_pos {l : List Nat} {p : Nat} (h : pbSkip l = some p) : 1 ≤ p := by
  have := pbSkipLoop_lt (l.length + 1) l 0 0 p h
  omega

/-- IndexEntry from kv.pb.go: `{key, offset, size}` plus preserved unknown
fields.  `offset` and `size` are Go `uint64` values. -/
structure IndexEntry where
  key : List Nat := []
  offset : Nat := 0
  size : Nat := 0
  unknownFields : List Nat := []
  deriving DecidableEq, Repr

/-- `IndexEntry.SizeVT`: exact byte length of the wire encoding. -/
def IndexEntry.sizeVT (m : IndexEntry) : Nat :=
  (if 0 < m.key.length then 1 + m.key.length + sizeOfVarint m.key.length else 0) +
  (if m.offset ≠ 0 then 1 + sizeOfVarint m.offset else 0) +
  (if m.size ≠ 0 then 1 + sizeOfVarint m.size else 0) +
  m.unknownFields.length

/-- Byte image produced by `IndexEntry.MarshalToSizedBufferVT`: the Go code
fills the buffer right to left, ending with field order key (tag 0x0A),
offset (tag 0x10), size (tag 0x18), then the raw unknown fields; zero or
empty fields are omitted. -/
def IndexEntry.marshalVT (m : IndexEntry) : List Nat :=
  (if 0 < m.key.length then 10 :: (appendVarint m.key.length ++ m.key) else []) ++
  (if m.offset ≠ 0 then 16 :: appendVarint m.offset else []) ++
  (if m.size ≠ 0 then 24 :: appendVarint m.size else []) ++
  m.unknownFields

theorem length_marshalVT (m : IndexEntry) : m.marshalVT.length = m.sizeVT := by
  simp only [IndexEntry.marshalVT, IndexEntry.sizeVT, List.length_append]
  by_cases h1 : 0 < m.key.length <;> by_cases h2 : m.offset ≠ 0 <;>
    by_cases h3 : m.size ≠ 0 <;>
    simp [h1, h2, h3, length_appendVarint] <;> omega

/-- Main loop of the generated `IndexEntry.UnmarshalVT`: reads a tag varint,
dispatches on the (int32-truncated) field number and wire type, updating the
entry; unknown fields are skipped via `pbSkip` and their raw bytes kept. -/
def unmarshalLoop : List Nat → IndexEntry → Option IndexEntry
  | [], m => some m
  | b :: tl, m =>
    match hv : pbReadVarint (b :: tl) with
    | none => none
    | some (wire, n) =>
      let fieldNum := wire / 8 % 2 ^ 32
      let wireType := wire % 8
      if wireType = 4 then none
      else if fieldNum = 0 ∨ 2 ^ 31 ≤ fieldNum then none
      else
        let rest := (b :: tl).drop n
        if fieldNum = 1 then
          if wireType ≠ 2 then none
          else
            match pbReadVarint rest with
            | none => none
            | some (byteLen, n2) =>
              if 2 ^ 63 ≤ byteLen then none
              else
                let tail := rest.drop n2
                if byteLen > tail.length then none
                else unmarshalLoop (tail.drop byteLen) { m with key := tail.take byteLen }
        else if fieldNum = 2 then
          if wireType ≠ 0 then none
          else
            match pbReadVarint rest with
            | none => none
            | some (v, n2) => unmarshalLoop (rest.drop n2) { m with offset := v }
        else if fieldNum = 3 then
          if wireType ≠ 0 then none
          else
            match pbReadVarint rest with
            | none => none
            | some (v, n2) => unmarshalLoop (rest.drop n2) { m with size := v }
        else
          match hs : pbSkip (b :: tl) with
          | none => none
          | some skippy =>
            if skippy > (b :: tl).length then none
            else unmarshalLoop ((b :: tl).drop skippy)
              { m with unknownFields := m.unknownFields ++ (b :: tl).take skippy }
termination_by l _ => l.length
decreasing_by
  · have hn := pbReadVarint_pos hv
    simp only [List.length_drop, List.length_cons]
    omega
  · have hn := pbReadVarint_pos hv
    simp only [List.length_drop, List.length_cons]
    omega
  · have hn := pbReadVarint_pos hv
    simp only [List.length_drop, List.length_cons]
    omega
  · have hp := pbSkip_pos hs
    simp only [List.length_drop, List.length_cons]
    omega

/-- `IndexEntry.UnmarshalVT`, starting from the zero-valued entry. -/
def unmarshalVT (l : List Nat) : Option IndexEntry :=
  unmarshalLoop l {}

theorem pbReadVarint_cons_small {t : Nat} (ht : t < 128) (X : List Nat) :
    pbReadVarint (t :: X) = some (t, 1) := by
  have hform : t :: X = appendVarint t ++ X := by
    rw [appendVarint_small ht]; rfl
  rw [hform, pbReadVarint_append t X (by omega), sizeOfVarint_small ht]

theorem unmarshalLoop_key_step (k rest : List Nat) (m : IndexEntry)
    (hlen : k.length < 2 ^ 63) :
    unmarshalLoop (10 :: (appendVarint k.length ++ (k ++ rest))) m =
      unmarshalLoop rest { m with key := k } := by
  conv_lhs => rw [unmarshalLoop]
  rw [pbReadVarint_cons_small (by omega)]
  simp only [List.drop_succ_cons, List.drop_zero]
  have h1 : (10 : Nat) / 8 % 2 ^ 32 = 1 := by norm_num
  have h2 : (10 : Nat) % 8 = 2 := by norm_num
  rw [h1, h2]
  norm_num
  rw [pbReadVarint_append k.length (k ++ rest) (by omega)]
  simp only
  rw [if_neg (show ¬(9223372036854775808 : Nat) ≤ k.length by omega)]
  rw [if_neg (show ¬(appendVarint k.length).length + (k.length + rest.length) -
      sizeOfVarint k.length < k.length by rw [length_appendVarint]; omega)]
  have e1 : List.drop (sizeOfVarint k.length) (appendVarint k.length ++ (k ++ rest)) =
      k ++ rest := by
    rw [← length_appendVarint, List.drop_left]
  have e2 : List.drop (sizeOfVarint k.length + k.length)
      (appendVarint k.length ++ (k ++ rest)) = rest := by
    rw [← List.drop_drop, e1, List.drop_left]
  rw [e1, e2, List.take_left]

theorem unmarshalLoop_offset_step (off : Nat) (rest : List Nat) (m : IndexEntry)
    (hoff : off < 2 ^ 64) :
    unmarshalLoop (16 :: (appendVarint off ++ rest)) m =
      unmarshalLoop rest { m with offset := off } := by
  conv_lhs => rw [unmarshalLoop]
  rw [pbReadVarint_cons_small (by omega)]
  simp only [List.drop_succ_cons, List.drop_zero]
  have h1 : (16 : Nat) / 8 % 2 ^ 32 = 2 := by norm_num
  have h2 : (16 : Nat) % 8 = 0 := by norm_num
  rw [h1, h2]
  norm_num
  rw [pbReadVarint_append off rest hoff]
  simp only
  rw [← length_appendVarint, List.drop_left]

theorem unmarshalLoop_size_step (sz : Nat) (rest : List Nat) (m : IndexEntry)
    (hsz : sz < 2 ^ 64) :
    unmarshalLoop (24 :: (appendVarint sz ++ rest)) m =
      unmarshalLoop rest { m with size := sz } := by
  conv_lhs => rw [unmarshalLoop]
  rw [pbReadVarint_cons_small (by omega)]
  simp only [List.drop_succ_cons, List.drop_zero]
  have h1 : (24 : Nat) / 8 % 2 ^ 32 = 3 := by norm_num
  have h2 : (24 : Nat) % 8 = 0 := by norm_num
  rw [h1, h2]
  norm_num
  rw [pbReadVarint_append sz rest hsz]
  simp only
  rw [← length_appendVarint, List.drop_left]

theorem unmarshalLoop_key_last (k : List Nat) (m : IndexEntry)
    (hlen : k.length < 2 ^ 63) :
    unmarshalLoop (10 :: (appendVarint k.length ++ k)) m = some { m with key := k } := by
  rw [show 10 :: (appendVarint k.length ++ k) =
      10 :: (appendVarint k.length ++ (k ++ [])) by rw [List.append_nil]]
  rw [unmarshalLoop_key_step k _ _ hlen, unmarshalLoop]

theorem unmarshalLoop_offset_last (off : Nat) (m : IndexEntry) (hoff : off < 2 ^ 64) :
    unmarshalLoop (16 :: appendVarint off) m = some { m with offset := off } := by
  rw [show 16 :: appendVarint off =
      16 :: (appendVarint off ++ ([] : List Nat)) by rw [List.append_nil]]
  rw [unmarshalLoop_offset_step off _ _ hoff, unmarshalLoop]

theorem unmarshalLoop_size_last (sz : Nat) (m : IndexEntry) (hsz : sz < 2 ^ 64) :
    unmarshalLoop (24 :: appendVarint sz) m = some { m with size := sz } := by
  rw [show 24 :: appendVarint sz =
      24 :: (appendVarint sz ++ ([] : List Nat)) by rw [List.append_nil]]
  rw [unmarshalLoop_size_step sz _ _ hsz, unmarshalLoop]

/-- Round trip of the IndexEntry codec for entries with no unknown fields
and `uint64`-ranged numeric fields, as produced by the writers. -/
theorem unmarshalVT_marshalVT (m : IndexEntry) (hu : m.unknownFields = [])
    (hk : m.key.length < 2 ^ 63) (ho : m.offset < 2 ^ 64) (hs : m.size < 2 ^ 64) :
    unmarshalVT m.marshalVT = some m := by
  obtain ⟨k, off, sz, u⟩ := m
  simp only at hu hk ho hs
  subst hu
  unfold unmarshalVT IndexEntry.marshalVT
  simp only
  by_cases hkp : 0 < k.length <;> by_cases hop : off ≠ 0 <;> by_cases hsp : sz ≠ 0
  · rw [if_pos hkp, if_pos hop, if_pos hsp]
    simp only [List.append_nil, List.cons_append, List.nil_append, List.append_assoc]
    rw [unmarshalLoop_key_step k _ _ hk, unmarshalLoop_offset_step off _ _ ho,
      unmarshalLoop_size_last sz _ hs]
  · simp only [not_not] at hsp
    rw [if_pos hkp, if_pos hop, if_neg (by omega : ¬sz ≠ 0)]
    simp only [List.append_nil, List.cons_append, List.nil_append, List.append_assoc]
    rw [unmarshalLoop_key_step k _ _ hk, unmarshalLoop_offset_last off _ ho, hsp]
  · simp only [not_not] at hop
    rw [if_pos hkp, if_neg (by omega : ¬off ≠ 0), if_pos hsp]
    simp only [List.append_nil, List.cons_append, List.nil_append, List.append_assoc]
    rw [unmarshalLoop_key_step k _ _ hk, unmarshalLoop_size_last sz _ hs, hop]
  · simp only [not_not] at hop hsp
    rw [if_pos hkp, if_neg (by omega : ¬off ≠ 0), if_neg (by omega : ¬sz ≠ 0)]
    simp only [List.append_nil, List.cons_append, List.nil_append, List.append_assoc]
    rw [unmarshalLoop_key_last k _ hk, hop, hsp]
  · have hk0 : k = [] := by simpa using (by omega : k.length = 0)
    subst hk0
    rw [if_neg (by simp), if_pos hop, if_pos hsp]
    simp only [List.append_nil, List.cons_append, List.nil_append, List.append_assoc]
    rw [unmarshalLoop_offset_step off _ _ ho, unmarshalLoop_size_last sz _ hs]
  · have hk0 : k = [] := by simpa using (by omega : k.length = 0)
    subst hk0
    simp only [not_not] at hsp
    rw [if_neg (by simp), if_pos hop, if_neg (by omega : ¬sz ≠ 0)]
    simp only [List.append_nil, List.cons_append, List.nil_append, List.append_assoc]
    rw [unmarshalLoop_offset_last off _ ho, hsp]
  · have hk0 : k = [] := by simpa using (by omega : k.length = 0)
    subst hk0
    simp only [not_not] at hop
    rw [if_neg (by simp), if_neg (by omega : ¬off ≠ 0), if_pos hsp]
    simp only [List.append_nil, List.cons_append, List.nil_append, List.append_assoc]
    rw [unmarshalLoop_size_last sz _ hs, hop]
  · have hk0 : k = [] := by simpa using (by omega : k.length = 0)
    subst hk0
    simp only [not_not] at hop hsp
    rw [if_neg (by simp), if_neg (by omega : ¬off ≠ 0), if_neg (by omega : ¬sz ≠ 0)]
    simp only [List.append_nil, List.nil_append]
    rw [unmarshalLoop, hop, hsp]

/-- Reader state captured by `BuildReader` (kv.go): entry count, the
position of the positions table, and the position of the first index
entry.  The underlying `ReaderAt` is passed separately as `file`. -/
structure ReaderState where
  indexEntryCount : Nat
  indexEntryIndexesPos : Nat
  indexEntryListPos : Nat
  deriving DecidableEq, Repr

/-- `BuildReader` (kv.go, current hardened revision): bootstrap a reader
from the trailer of a stream of `fileSize` bytes. -/
def BuildReader (file : List Nat) (fileSize : Nat) : Except KvError ReaderState :=
  if fileSize = 0 then .ok ⟨0, 0, 0⟩
  else if fileSize < 8 then .error .trailerTooSmall
  else if fileSize > maxInt64 then .error .overflow
  else
    let indexEntryCountPos := fileSize - 8
    match readAt file indexEntryCountPos 8 with
    | none => .error .ioError
    | some buf =>
      let indexEntryCount := getUint64LE buf
      if indexEntryCount > (2 ^ 64 - 1) / 8 then .error .countTooLarge
      else if indexEntryCount * 8 > indexEntryCountPos then .error .countTooLarge
      else
        let indexEntryIndexesPos := indexEntryCountPos - indexEntryCount * 8
        if indexEntryIndexesPos > maxInt64 then .error .overflow
        else match readAt file indexEntryIndexesPos 8 with
        | none => .error .ioError
        | some buf2 =>
          let firstIndexEntryLenPos := getUint64LE buf2
          if firstIndexEntryLenPos > maxInt64 then .error .overflow
          else match readAt file firstIndexEntryLenPos 8 with
          | none => .error .ioError
          | some buf3 =>
            match consumeVarint buf3 with
            | none => .error .invalidVarint
            | some (indexEntrySize, _) =>
              if indexEntrySize > maxIndexEntrySize then .error .entryTooLarge
              else if firstIndexEntryLenPos < indexEntrySize then .error .entryUnderflow
              else .ok ⟨indexEntryCount, indexEntryIndexesPos,
                firstIndexEntryLenPos - indexEntrySize⟩

/-- `Reader.ReadIndexEntry` (kv.go, current hardened revision): two random
reads (8-byte slot, then a 10-byte window at the recorded position), varint
decode, then entry decode and offset cross-check. -/
def ReadIndexEntry (file : List Nat) (r : ReaderState) (indexEntryIdx : Nat) :
    Except KvError IndexEntry :=
  if indexEntryIdx ≥ r.indexEntryCount then .error .outOfBounds
  else if indexEntryIdx > (2 ^ 64 - 1 - r.indexEntryIndexesPos) / 8 then .error .overflow
  else
    let indexEntryLocPos := r.indexEntryIndexesPos + 8 * indexEntryIdx
    if indexEntryLocPos > maxInt64 then .error .overflow
    else match readAt file indexEntryLocPos 8 with
    | none => .error .ioError
    | some buf =>
      let indexEntrySizePos := getUint64LE buf
      if indexEntrySizePos > maxInt64 then .error .overflow
      else match readAt file indexEntrySizePos 10 with
      | none => .error .ioError
      | some buf2 =>
        match consumeVarint buf2 with
        | none => .error .invalidVarint
        | some (indexEntrySize, _) =>
          if indexEntrySize > maxIndexEntrySize then .error .entryTooLarge
          else if indexEntrySizePos < indexEntrySize then .error .entryUnderflow
          else
            let indexEntryPos := indexEntrySizePos - indexEntrySize
            if indexEntryPos > maxInt64 then .error .overflow
            else match readAt file indexEntryPos indexEntrySize with
            | none => .error .ioError
            | some buf3 =>
              match unmarshalVT buf3 with
              | none => .error .unmarshalFailed
              | some indexEntry =>
                if indexEntry.offset > indexEntryPos then .error .offsetBeyondEntry
                else .ok indexEntry

/-- Binary-search loop of `Reader.SearchIndexEntryWithKey` over `i < j`,
midpoint `i + (j - i) / 2`.  On a read error the Go function returns the
probe index alongside the error; the model keeps only the error. -/
def SearchKeyLoop (file : List Nat) (r : ReaderState) (key : List Nat)
    (i j : Nat) : Except KvError (Option IndexEntry × Int) :=
  if hij : i < j then
    let h := i + (j - i) / 2
    match ReadIndexEntry file r h with
    | .error e => .error e
    | .ok entry =>
      match bytesCompare entry.key key with
      | .eq => .ok (some entry, (h : Int))
      | .lt => SearchKeyLoop file r key (h + 1) j
      | .gt => SearchKeyLoop file r key i h
  else .ok (none, (i : Int))
termination_by j - i
decreasing_by
  · omega
  · omega

/-- `Reader.SearchIndexEntryWithKey` (kv.go, current hardened revision). -/
def SearchIndexEntryWithKey (file : List Nat) (r : ReaderState) (key : List Nat) :
    Except KvError (Option IndexEntry × Int) :=
  if r.indexEntryCount > maxInt64 then .error .overflow
  else SearchKeyLoop file r key 0 r.indexEntryCount

/-- Binary-search loop of `Reader.SearchIndexEntryWithPrefix` over the
inclusive range `i ≤ j`, tracking the best prefix match seen so far. -/
def SearchPrefixLoop (file : List Nat) (r : ReaderState) (pre : List Nat)
    (last : Bool) (i j : Int) (matched : Option (IndexEntry × Int)) :
    Except KvError (Option IndexEntry × Int) :=
  if hij : i ≤ j then
    let h := i + (j - i) / 2
    match ReadIndexEntry file r h.toNat with
    | .error e => .error e
    | .ok entry =>
      if goHasPrefix entry.key pre then
        if last then SearchPrefixLoop file r pre last (h + 1) j (some (entry, h))
        else SearchPrefixLoop file r pre last i (h - 1) (some (entry, h))
      else
        match bytesCompare entry.key pre with
        | .lt => SearchPrefixLoop file r pre last (h + 1) j matched
        | _ => SearchPrefixLoop file r pre last i (h - 1) matched
  else
    match matched with
    | some (e, idx) => .ok (some e, idx)
    | none => .ok (none, i)
termination_by (j + 1 - i).toNat
decreasing_by
  · omega
  · omega
  · omega
  · omega

/-- `Reader.SearchIndexEntryWithPrefix` (kv.go, current hardened
revision): empty prefix selects the first or last element; otherwise an
inclusive-bounds binary search over `[0, count-1]`. -/
def SearchIndexEntryWithPrefix (file : List Nat) (r : ReaderState)
    (pre : List Nat) (last : Bool) : Except KvError (Option IndexEntry × Int) :=
  if pre.length = 0 then
    if r.indexEntryCount > maxInt64 then .error .overflow
    else
      let count : Int := (r.indexEntryCount : Int)
      if last then
        if count = 0 then .ok (none, -1)
        else
          match ReadIndexEntry file r (count - 1).toNat with
          | .error e => .error e
          | .ok ent => .ok (some ent, count - 1)
      else
        if 0 < count then
          match ReadIndexEntry file r 0 with
          | .error e => .error e
          | .ok ent => .ok (some ent, 0)
        else .ok (none, 0)
  else
    if r.indexEntryCount > maxInt64 then .error .overflow
    else if r.indexEntryCount = 0 then .ok (none, 0)
    else SearchPrefixLoop file r pre last 0 ((r.indexEntryCount : Int) - 1) none

/-- `Reader.GetValuePositionWithEntry` (kv.go, current hardened revision):
resolve an entry to `(offset, length)` with overflow, `maxValueSize` and
positions-table-bound checks. -/
def GetValuePositionWithEntry (r : ReaderState) (indexEntry : IndexEntry) :
    Except KvError (Int × Int) :=
  if indexEntry.offset > maxInt64 then .error .overflow
  else if indexEntry.size > maxInt64 then .error .overflow
  else if indexEntry.size > maxValueSize then .error .valueTooLarge
  else if indexEntry.offset > maxInt64 - indexEntry.size then .error .overflow
  else if r.indexEntryIndexesPos > maxInt64 then .error .overflow
  else if indexEntry.offset + indexEntry.size > r.indexEntryIndexesPos then
    .error .valueOutOfBounds
  else .ok ((indexEntry.offset : Int), (indexEntry.size : Int))

/-- `Reader.GetValuePosition` (kv.go): search then resolve; a missing key
yields the in-band `(-1, -1, none, -1)`. -/
def GetValuePosition (file : List Nat) (r : ReaderState) (key : List Nat) :
    Except KvError (Int × Int × Option IndexEntry × Int) :=
  match SearchIndexEntryWithKey file r key with
  | .error e => .error e
  | .ok (none, _) => .ok (-1, -1, none, -1)
  | .ok (some ent, idx) =>
    match GetValuePositionWithEntry r ent with
    | .error e => .error e
    | .ok (off, len) => .ok (off, len, some ent, idx)

/-- `Reader.Get` (kv.go): `ok none` is the in-band "not found"
(`nil, false, nil` in Go); `ok (some v)` is `v, true, nil`. -/
def Get (file : List Nat) (r : ReaderState) (key : List Nat) :
    Except KvError (Option (List Nat)) :=
  match GetValuePosition file r key with
  | .error e => .error e
  | .ok (valueIdx, valueLen, _, _) =>
    if valueLen < 0 ∨ valueIdx < 0 then .ok none
    else
      match readAt file valueIdx.toNat valueLen.toNat with
      | none => .error .ioError
      | some buf => .ok (some buf)

/-- `Reader.GetValueSize` (kv.go): the resolved length without reading
the value; `ok none` models the in-band `-1, nil` "not found". -/
def GetValueSize (file : List Nat) (r : ReaderState) (key : List Nat) :
    Except KvError (Option Int) :=
  match GetValuePosition file r key with
  | .error e => .error e
  | .ok (valueIdx, valueLen, _, _) =>
    if valueLen < 0 ∨ valueIdx < 0 then .ok none
    else .ok (some valueLen)

/-- Forward-iteration loop of `Reader.ScanPrefixEntries` from index `i`,
recording the visited `(entry, index)` pairs in order (the model's
callback records and never fails). -/
def ScanLoop (file : List Nat) (r : ReaderState) (pre : List Nat)
    (i size : Nat) (acc : List (IndexEntry × Int)) :
    Except KvError (List (IndexEntry × Int)) :=
  if his : i < size then
    match ReadIndexEntry file r i with
    | .error e => .error e
    | .ok indexEntry =>
      if goHasPrefix indexEntry.key pre then
        ScanLoop file r pre (i + 1) size (acc ++ [(indexEntry, (i : Int))])
      else .ok acc
  else .ok acc
termination_by size - i

/-- `Reader.ScanPrefixEntries` (kv.go): the list of `(entry, index)` pairs
the callback is invoked on, in invocation order. -/
def ScanPrefixEntries (file : List Nat) (r : ReaderState) (pre : List Nat) :
    Except KvError (List (IndexEntry × Int)) :=
  match SearchIndexEntryWithPrefix file r pre false with
  | .error e => .error e
  | .ok (none, _) => .ok []
  | .ok (some firstMatch, firstIndex) =>
    if r.indexEntryCount > maxInt64 then .error .overflow
    else ScanLoop file r pre (firstIndex.toNat + 1) r.indexEntryCount
      [(firstMatch, firstIndex)]

/-- Comparator handed to `slices.SortStableFunc` in `WriteIndex`:
`bytes.Compare(a.Key, b.Key)`, as a `≤`-style Bool for the stable merge
sort that models Go's stable sort. -/
def entryLe (a b : IndexEntry) : Bool :=
  bytesCompare a.key b.key ≠ .gt

/-- Entry-writing loop of `WriteIndex` (write.go, current revision): checks
adjacent keys for duplicates, writes each marshalled entry followed by the
varint of its byte length, records the position just after the entry bytes
(that is, the position of the size varint) into the positions list, and
checks every position advance against uint64 overflow.  Returns the
emitted bytes, the recorded positions, and the final position. -/
def WriteIndexEntriesLoop : List IndexEntry → Option (List Nat) → Nat →
    Except KvError (List Nat × List Nat × Nat)
  | [], _, pos => .ok ([], [], pos)
  | indexEntry :: restEntries, prevKey, pos =>
    if prevKey = some indexEntry.key then .error .duplicateKey
    else
      let buf := indexEntry.marshalVT
      if pos + buf.length > 2 ^ 64 - 1 then .error .overflow
      else
        let pos1 := pos + buf.length
        let vbuf := appendVarint buf.length
        if pos1 + vbuf.length > 2 ^ 64 - 1 then .error .overflow
        else
          let pos2 := pos1 + vbuf.length
          match WriteIndexEntriesLoop restEntries (some indexEntry.key) pos2 with
          | .error e => .error e
          | .ok (bytes, positions, endPos) =>
            .ok (buf ++ vbuf ++ bytes, pos1 :: positions, endPos)

/-- `WriteIndex` (write.go, current revision): stable-sort the entries by
key, emit the framed entries, then the positions table whose final slot is
the entry count (the trailer).  The partial bytes Go leaves in the sink on
an error path are not modelled; only success bytes are returned. -/
def WriteIndex (index : List IndexEntry) (pos : Nat) : Except KvError (List Nat) :=
  let sorted := index.mergeSort entryLe
  match WriteIndexEntriesLoop sorted none pos with
  | .error e => .error e
  | .ok (bytes, positions, endPos) =>
    if endPos + 8 * (index.length + 1) > 2 ^ 64 - 1 then .error .overflow
    else .ok (bytes ++ ((positions ++ [index.length]).map putUint64LE).flatten)

/-- Value-writing loop of `WriteIterator` (write.go, current revision):
iterate keys until exhaustion or the first zero-length key, write each
value, and record `{key, offset = position before the callback,
size = count returned by the callback}`.  The callback is modelled as a
pure function returning the bytes it writes and the count it reports
(its Go contract is to report exactly what it wrote); `uint64` position
arithmetic wraps.  Returns the value bytes, the index entries in input
order, and the final position. -/
def WriteIteratorLoop : List (List Nat) → (List Nat → List Nat × Nat) → Nat →
    List Nat × List IndexEntry × Nat
  | [], _, pos => ([], [], pos)
  | nextKey :: restKeys, writeValueFunc, pos =>
    if nextKey.length = 0 then ([], [], pos)
    else
      let offset := pos
      let (vbytes, nwRaw) := writeValueFunc nextKey
      let nw := nwRaw % 2 ^ 64
      let pos' := (pos + nw) % 2 ^ 64
      let (bytes, entries, endPos) := WriteIteratorLoop restKeys writeValueFunc pos'
      (vbytes ++ bytes, ⟨nextKey, offset, nw, []⟩ :: entries, endPos)

/-- `WriteIterator` (write.go, current revision): write the values, then
delegate to `WriteIndex`.  `Write(out, keys, writeValue)` wraps this with
an iterator that yields `keys` in order, so it is the same function of the
key list. -/
def WriteIterator (keys : List (List Nat)) (writeValueFunc : List Nat → List Nat × Nat) :
    Except KvError (List Nat) :=
  let (valueBytes, index, pos) := WriteIteratorLoop keys writeValueFunc 0
  match WriteIndex index pos with
  | .error e => .error e
  | .ok idxBytes => .ok (valueBytes ++ idxBytes)

/-- `Write` (write.go): the batch entry point — an iterator over the key
slice feeding `WriteIterator`. -/
def Write (keys : List (List Nat)) (writeValueFunc : List Nat → List Nat × Nat) :
    Except KvError (List Nat) :=
  WriteIterator keys writeValueFunc

/-- Progressive `Writer` state (write.go): output bytes, pending index,
position, and the closed flag. -/
structure WriterState where
  out : List Nat
  idx : List IndexEntry
  pos : Nat
  fin : Bool
  deriving DecidableEq, Repr

/-- `NewWriter`. -/
def NewWriter : WriterState := ⟨[], [], 0, false⟩

/-- `Writer.WriteValue` (write.go, current revision): copy the value to the
output, then (after an overflow check on the position) record
`{key, offset = previous position, size = bytes copied}`.  The value
source is modelled as the byte list it yields. -/
def WriterWriteValue (w : WriterState) (key value : List Nat) :
    WriterState × Option KvError :=
  if w.fin then (w, some .writerClosed)
  else
    let nw := value.length
    let w1 := { w with out := w.out ++ value }
    if w.pos > 2 ^ 64 - 1 - nw then ({ w1 with fin := true }, some .overflow)
    else
      ({ w1 with pos := w.pos + nw, idx := w.idx ++ [⟨key, w.pos, nw, []⟩] }, none)

/-- `Writer.Close` (write.go): flush the index via `WriteIndex` and mark
the writer closed.  Partial bytes written before an index error are not
modelled. -/
def WriterClose (w : WriterState) : WriterState × Option KvError :=
  if w.fin then (w, some .writerClosed)
  else
    match WriteIndex w.idx w.pos with
    | .error e => ({ w with fin := true, idx := [] }, some e)
    | .ok bytes =>
      ({ w with out := w.out ++ bytes, fin := true, idx := [], pos := w.pos + bytes.length },
        none)

/-- Framed form of one index entry in the archive: the marshalled bytes
followed by the varint of their length. -/
def framedEntry (e : IndexEntry) : List Nat :=
  e.marshalVT ++ appendVarint e.marshalVT.length

/-- The index region: the framed entries in order. -/
def indexRegion (es : List IndexEntry) : List Nat :=
  (es.map framedEntry).flatten

/-- The positions recorded while writing the index from position `pos`:
slot `i` is the absolute position just after entry `i`'s marshalled bytes,
which is where entry `i`'s framing varint starts. -/
def posList : List IndexEntry → Nat → List Nat
  | [], _ => []
  | e :: es, pos => (pos + e.marshalVT.length) :: posList es (pos + (framedEntry e).length)

/-- The serialized positions table: each position as 8 little-endian
bytes, with the entry count as the final slot (the trailer). -/
def posTable (positions : List Nat) (count : Nat) : List Nat :=
  ((positions ++ [count]).map putUint64LE).flatten

/-- Adjacent-duplicate condition checked by the `WriteIndex` loop: no
entry's key equals the previous entry's key, starting from `prev`. -/
def chainOk : Option (List Nat) → List IndexEntry → Bool
  | _, [] => true
  | prev, e :: es => decide (prev ≠ some e.key) && chainOk (some e.key) es

theorem length_framedEntry (e : IndexEntry) :
    (framedEntry e).length = e.marshalVT.length + sizeOfVarint e.marshalVT.length := by
  simp [framedEntry, length_appendVarint]

theorem length_indexRegion_cons (e : IndexEntry) (es : List IndexEntry) :
    (indexRegion (e :: es)).length = (framedEntry e).length + (indexRegion es).length := by
  simp [indexRegion]

/-- Characterization of the `WriteIndex` entry loop: under the uint64
bound it succeeds exactly when no adjacent duplicate occurs, producing the
index region and positions list; otherwise it reports the duplicate. -/
theorem WriteIndexEntriesLoop_spec : ∀ (es : List IndexEntry) (prev : Option (List Nat))
    (pos : Nat), pos + (indexRegion es).length ≤ 2 ^ 64 - 1 →
    (chainOk prev es = true →
      WriteIndexEntriesLoop es prev pos =
        .ok (indexRegion es, posList es pos, pos + (indexRegion es).length)) ∧
    (chainOk prev es = false →
      WriteIndexEntriesLoop es prev pos = .error .duplicateKey) := by
  intro es
  induction es with
  | nil =>
    intro prev pos hb
    constructor
    · intro _
      simp [WriteIndexEntriesLoop, indexRegion, posList]
    · intro hc
      simp [chainOk] at hc
  | cons e es ih =>
    intro prev pos hb
    have hlen : (indexRegion (e :: es)).length =
        (framedEntry e).length + (indexRegion es).length := length_indexRegion_cons e es
    have hfe : (framedEntry e).length =
        e.marshalVT.length + sizeOfVarint e.marshalVT.length := length_framedEntry e
    have hvpos : 1 ≤ sizeOfVarint e.marshalVT.length := sizeOfVarint_pos _
    constructor
    · intro hchain
      simp only [chainOk, Bool.and_eq_true, decide_eq_true_eq] at hchain
      obtain ⟨hne, hrest⟩ := hchain
      rw [WriteIndexEntriesLoop]
      rw [if_neg hne]
      rw [if_neg (by omega : ¬pos + e.marshalVT.length > 2 ^ 64 - 1)]
      rw [if_neg (show ¬pos + e.marshalVT.length + (appendVarint e.marshalVT.length).length >
        2 ^ 64 - 1 by rw [length_appendVarint]; omega)]
      have hrec := (ih (some e.key) (pos + e.marshalVT.length +
        (appendVarint e.marshalVT.length).length)
        (by rw [length_appendVarint]; omega)).1 hrest
      simp only
      rw [hrec]
      simp only [Except.ok.injEq, Prod.mk.injEq]
      refine ⟨?_, ?_, ?_⟩
      · simp [indexRegion, framedEntry, length_appendVarint]
      · rw [posList]
        congr 1
        congr 1
        rw [hfe, length_appendVarint]
        omega
      · rw [hlen, hfe, length_appendVarint]
        omega
    · intro hchain
      rw [WriteIndexEntriesLoop]
      by_cases hne : prev = some e.key
      · rw [if_pos hne]
      · rw [if_neg hne]
        have hrest : chainOk (some e.key) es = false := by
          simp only [chainOk, Bool.and_eq_false_iff] at hchain
          rcases hchain with hc | hc
          · simp at hc; exact absurd hc hne
          · exact hc
        rw [if_neg (by omega : ¬pos + e.marshalVT.length > 2 ^ 64 - 1)]
        rw [if_neg (show ¬pos + e.marshalVT.length + (appendVarint e.marshalVT.length).length >
          2 ^ 64 - 1 by rw [length_appendVarint]; omega)]
        have hrec := (ih (some e.key) (pos + e.marshalVT.length +
          (appendVarint e.marshalVT.length).length)
          (by rw [length_appendVarint]; omega)).2 hrest
        simp only
        rw [hrec]

theorem entryLe_iff (a b : IndexEntry) : entryLe a b = true ↔ a.key ≤ b.key := by
  simp only [entryLe, ne_eq, decide_not, Bool.not_eq_eq_eq_not, Bool.not_true,
    decide_eq_false_iff_not]
  rw [bytesCompare_gt_iff]
  show ¬b.key < a.key ↔ a.key ≤ b.key
  exact not_lt

theorem entryLe_trans (a b c : IndexEntry) (h1 : entryLe a b = true)
    (h2 : entryLe b c = true) : entryLe a c = true := by
  rw [entryLe_iff] at h1 h2 ⊢
  exact le_trans h1 h2

theorem entryLe_total (a b : IndexEntry) : (entryLe a b || entryLe b a) = true := by
  rcases le_total a.key b.key with h | h
  · rw [Bool.or_eq_true]; exact Or.inl ((entryLe_iff a b).mpr h)
  · rw [Bool.or_eq_true]; exact Or.inr ((entryLe_iff b a).mpr h)

/-- `WriteIndex` on inputs whose stable sort has no adjacent duplicate
keys: emits the index region followed by the positions table. -/
theorem WriteIndex_ok (index : List IndexEntry) (pos : Nat)
    (hchain : chainOk none (index.mergeSort entryLe) = true)
    (hb : pos + (indexRegion (index.mergeSort entryLe)).length +
      8 * (index.length + 1) ≤ 2 ^ 64 - 1) :
    WriteIndex index pos = .ok (indexRegion (index.mergeSort entryLe) ++
      posTable (posList (index.mergeSort entryLe) pos) index.length) := by
  unfold WriteIndex
  simp only
  rw [(WriteIndexEntriesLoop_spec (index.mergeSort entryLe) none pos (by omega)).1 hchain]
  simp only
  rw [if_neg (by omega :
    ¬pos + (indexRegion (index.mergeSort entryLe)).length + 8 * (index.length + 1) >
      2 ^ 64 - 1)]
  rfl

/-- `WriteIndex` on inputs whose stable sort contains an adjacent
duplicate key reports the duplicate (under the uint64 bound). -/
theorem WriteIndex_dup (index : List IndexEntry) (pos : Nat)
    (hchain : chainOk none (index.mergeSort entryLe) = false)
    (hb : pos + (indexRegion (index.mergeSort entryLe)).length ≤ 2 ^ 64 - 1) :
    WriteIndex index pos = .error .duplicateKey := by
  unfold WriteIndex
  simp only
  rw [(WriteIndexEntriesLoop_spec (index.mergeSort entryLe) none pos hb).2 hchain]

/-- Index entries built by `WriteIteratorLoop` for an exact callback:
offsets are the running sums of the value lengths. -/
def entriesExact : List (List Nat) → (List Nat → List Nat × Nat) → Nat → List IndexEntry
  | [], _, _ => []
  | k :: ks, wv, pos => ⟨k, pos, (wv k).1.length, []⟩ :: entriesExact ks wv (pos + (wv k).1.length)

/-- `WriteIteratorLoop` stops at the first empty key: the tail past it is
never consulted. -/
theorem WriteIteratorLoop_takeWhile (keys : List (List Nat))
    (wv : List Nat → List Nat × Nat) (pos : Nat) :
    WriteIteratorLoop keys wv pos =
      WriteIteratorLoop (keys.takeWhile fun k => decide (k ≠ [])) wv pos := by
  induction keys generalizing pos with
  | nil => rfl
  | cons k ks ih =>
    by_cases hk : k = []
    · subst hk
      simp [WriteIteratorLoop, List.takeWhile_cons]
    · rw [List.takeWhile_cons]
      have hd : (decide (k ≠ [])) = true := by simp [hk]
      rw [hd]
      simp only [if_true]
      rw [WriteIteratorLoop, WriteIteratorLoop]
      rw [if_neg (by simpa using hk), if_neg (by simpa using hk)]
      simp only
      rw [ih]

/-- Closed form of `WriteIteratorLoop` when no key is empty, the callback
reports exactly the bytes it writes, and positions stay within uint64:
values are concatenated in input order and each entry records the position
before its own callback and the reported count. -/
theorem WriteIteratorLoop_exact (keys : List (List Nat))
    (wv : List Nat → List Nat × Nat) (pos : Nat)
    (hne : ∀ k ∈ keys, k ≠ [])
    (hh : ∀ k ∈ keys, (wv k).2 = (wv k).1.length)
    (hb : pos + ((keys.map fun k => (wv k).1).flatten).length < 2 ^ 64) :
    WriteIteratorLoop keys wv pos =
      ((keys.map fun k => (wv k).1).flatten, entriesExact keys wv pos,
        pos + ((keys.map fun k => (wv k).1).flatten).length) := by
  induction keys generalizing pos with
  | nil => simp [WriteIteratorLoop, entriesExact]
  | cons k ks ih =>
    have hk : k ≠ [] := hne k (by simp)
    rw [WriteIteratorLoop, if_neg (by simpa using hk)]
    simp only [List.map_cons, List.flatten_cons, List.length_append] at hb ⊢
    have hwv : (wv k).2 = (wv k).1.length := hh k (by simp)
    have hsm : (wv k).2 % 2 ^ 64 = (wv k).1.length := by
      rw [hwv]; exact Nat.mod_eq_of_lt (by omega)
    have hps : (pos + (wv k).2 % 2 ^ 64) % 2 ^ 64 = pos + (wv k).1.length := by
      rw [hsm]; exact Nat.mod_eq_of_lt (by omega)
    rw [hps]
    rw [ih (pos + (wv k).1.length) (fun x hx => hne x (by simp [hx]))
      (fun x hx => hh x (by simp [hx])) (by omega)]
    rw [entriesExact]
    simp only [Prod.mk.injEq, true_and]
    refine ⟨?_, ?_⟩
    · rw [hsm]
    · omega

/-- The archive laid out by the writer: values, index region, positions
table with trailer. -/
def archiveOf (values : List Nat) (es : List IndexEntry) : List Nat :=
  values ++ (indexRegion es ++ posTable (posList es values.length) es.length)

theorem readAt_block (X Y Z : List Nat) (pos n : Nat) (hpos : pos = X.length)
    (hn : n = Y.length) : readAt (X ++ (Y ++ Z)) pos n = some Y := by
  subst hpos hn
  unfold readAt
  rw [if_pos (by simp)]
  rw [List.drop_left, List.take_left]

theorem readAt_window (X B : List Nat) (pos w : Nat) (hpos : pos = X.length)
    (hw : w ≤ B.length) : readAt (X ++ B) pos w = some (B.take w) := by
  subst hpos
  unfold readAt
  rw [if_pos (by simp; omega)]
  rw [List.drop_left]

theorem consumeVarint_take (v w : Nat) (rest : List Nat) (hv : v < 2 ^ 64)
    (hw : sizeOfVarint v ≤ w) :
    consumeVarint ((appendVarint v ++ rest).take w) = some (v, sizeOfVarint v) := by
  rw [List.take_append_eq_append_take]
  rw [List.take_of_length_le (by rw [length_appendVarint]; omega)]
  exact consumeVarint_append v _ hv

theorem length_flatten_put (ps : List Nat) :
    ((ps.map putUint64LE).flatten).length = 8 * ps.length := by
  induction ps with
  | nil => simp
  | cons p ps ih => simp [ih, length_putUint64LE]; omega

theorem posTable_eq (ps : List Nat) (count : Nat) :
    posTable ps count = (ps.map putUint64LE).flatten ++ putUint64LE count := by
  simp [posTable]

theorem length_posTable (ps : List Nat) (count : Nat) :
    (posTable ps count).length = 8 * (ps.length + 1) := by
  rw [posTable_eq]
  rw [List.length_append, length_flatten_put, length_putUint64LE]
  omega

theorem flatten_put_slice (ps : List Nat) : ∀ (i : Nat) (hi : i < ps.length),
    ∃ pre post, (ps.map putUint64LE).flatten = pre ++ (putUint64LE ps[i] ++ post) ∧
      pre.length = 8 * i := by
  induction ps with
  | nil => intro i hi; simp at hi
  | cons p ps ih =>
    intro i hi
    cases i with
    | zero =>
      refine ⟨[], (ps.map putUint64LE).flatten, ?_, ?_⟩ <;> simp
    | succ i =>
      obtain ⟨pre, post, heq, hlen⟩ := ih i (by simpa using hi)
      refine ⟨putUint64LE p ++ pre, post, ?_, ?_⟩
      · simp only [List.map_cons, List.flatten_cons, heq, List.append_assoc,
          List.getElem_cons_succ]
      · simp [hlen, length_putUint64LE]
        omega

theorem posList_length (es : List IndexEntry) : ∀ (pos : Nat),
    (posList es pos).length = es.length := by
  induction es with
  | nil => intro pos; simp [posList]
  | cons e es ih => intro pos; simp [posList, ih]

/-- Byte length of the index region before entry `i`. -/
def regionPre (es : List IndexEntry) (i : Nat) : Nat :=
  (indexRegion (es.take i)).length

theorem posList_get (es : List IndexEntry) : ∀ (pos i : Nat) (hi : i < es.length),
    (posList es pos).get ⟨i, by rw [posList_length]; omega⟩ =
      pos + regionPre es i + (es[i]).marshalVT.length := by
  induction es with
  | nil => intro pos i hi; simp at hi
  | cons e es ih =>
    intro pos i hi
    cases i with
    | zero =>
      simp [posList, regionPre, indexRegion]
    | succ i =>
      have := ih (pos + (framedEntry e).length) i (by simpa using hi)
      simp only [List.get_eq_getElem] at this ⊢
      simp only [posList, List.getElem_cons_succ]
      rw [this]
      simp only [regionPre, List.take_succ_cons, indexRegion, List.map_cons,
        List.flatten_cons, List.length_append]
      omega

theorem indexRegion_slice (es : List IndexEntry) : ∀ (i : Nat) (hi : i < es.length),
    ∃ post, indexRegion es = indexRegion (es.take i) ++ (framedEntry es[i] ++ post) := by
  induction es with
  | nil => intro i hi; simp at hi
  | cons e es ih =>
    intro i hi
    cases i with
    | zero =>
      refine ⟨indexRegion es, ?_⟩
      simp [indexRegion]
    | succ i =>
      obtain ⟨post, heq⟩ := ih i (by simpa using hi)
      refine ⟨post, ?_⟩
      simp only [List.take_succ_cons, indexRegion, List.map_cons, List.flatten_cons,
        List.getElem_cons_succ]
      rw [← indexRegion, ← indexRegion, heq]
      simp [List.append_assoc]

theorem regionPre_le (es : List IndexEntry) (i : Nat) (hi : i < es.length) :
    regionPre es i + (framedEntry es[i]).length ≤ (indexRegion es).length := by
  obtain ⟨post, heq⟩ := indexRegion_slice es i hi
  rw [heq]
  simp [regionPre]

theorem getUint64LE_put (v : Nat) : getUint64LE (putUint64LE v) = v % 2 ^ 64 := by
  rw [← List.append_nil (putUint64LE v), getUint64LE_putUint64LE]

theorem keyLen_le_sizeVT (m : IndexEntry) : m.key.length ≤ m.sizeVT := by
  unfold IndexEntry.sizeVT
  split_ifs <;> omega

/-- Reading back entry `i` of a writer-laid-out archive returns exactly
that entry: the slot holds the position of the entry's framing varint, the
varint is decoded forward from there, and the entry bytes immediately
before it decode to the original entry. -/
theorem ReadIndexEntry_archive (values : List Nat) (es : List IndexEntry)
    (hsz : ∀ e ∈ es, e.sizeVT ≤ maxIndexEntrySize)
    (hoff : ∀ e ∈ es, e.offset ≤ values.length)
    (hwf : ∀ e ∈ es, e.unknownFields = [] ∧ e.offset < 2 ^ 64 ∧ e.size < 2 ^ 64)
    (hfs : (archiveOf values es).length ≤ maxInt64)
    (i : Nat) (hi : i < es.length) :
    ReadIndexEntry (archiveOf values es)
      ⟨es.length, values.length + (indexRegion es).length, values.length⟩ i =
      .ok es[i] := by
  have hmax : maxInt64 = 2 ^ 63 - 1 := rfl
  have hmies : maxIndexEntrySize = 2048 := rfl
  obtain ⟨post, hregion⟩ := indexRegion_slice es i hi
  have hmem : es[i] ∈ es := List.getElem_mem hi
  have hL : es[i].marshalVT.length = es[i].sizeVT := length_marshalVT _
  have hszi : es[i].marshalVT.length ≤ 2048 := by
    have := hsz es[i] hmem
    omega
  have hlenA : (archiveOf values es).length =
      values.length + (indexRegion es).length + 8 * (es.length + 1) := by
    simp only [archiveOf, List.length_append, length_posTable, posList_length]
    omega
  have hpre : regionPre es i + (framedEntry es[i]).length ≤ (indexRegion es).length :=
    regionPre_le es i hi
  have hframed : (framedEntry es[i]).length =
      es[i].marshalVT.length + sizeOfVarint es[i].marshalVT.length := length_framedEntry _
  have hv1 : 1 ≤ sizeOfVarint es[i].marshalVT.length := sizeOfVarint_pos _
  have hpreval : regionPre es i = (indexRegion (es.take i)).length := rfl
  -- the recorded position for entry i
  have hpsl : (posList es values.length).length = es.length := posList_length es values.length
  have hpsi : (posList es values.length).get ⟨i, by omega⟩ =
      values.length + regionPre es i + es[i].marshalVT.length := posList_get es values.length i hi
  -- slot read
  obtain ⟨pre8, post8, htab, hpre8⟩ := flatten_put_slice (posList es values.length) i (by omega)
  have hslot : readAt (archiveOf values es)
      (values.length + (indexRegion es).length + 8 * i) 8 =
      some (putUint64LE ((posList es values.length).get ⟨i, by omega⟩)) := by
    have hA : archiveOf values es =
        (values ++ indexRegion es ++ pre8) ++
          (putUint64LE ((posList es values.length).get ⟨i, by omega⟩) ++
            (post8 ++ putUint64LE es.length)) := by
      simp only [archiveOf, posTable_eq, htab, List.append_assoc, List.get_eq_getElem]
    rw [hA]
    exact readAt_block _ _ _ _ _ (by simp [hpre8]; omega) (by rw [length_putUint64LE])
  -- varint window read
  have hwindow : readAt (archiveOf values es)
      (values.length + regionPre es i + es[i].marshalVT.length) 10 =
      some ((appendVarint es[i].marshalVT.length ++
        (post ++ posTable (posList es values.length) es.length)).take 10) := by
    have hA : archiveOf values es =
        (values ++ indexRegion (es.take i) ++ es[i].marshalVT) ++
          (appendVarint es[i].marshalVT.length ++
            (post ++ posTable (posList es values.length) es.length)) := by
      simp only [archiveOf, hregion, framedEntry, List.append_assoc]
    rw [hA]
    refine readAt_window _ _ _ _ (by simp [← hpreval]; omega) ?_
    simp only [List.length_append, length_posTable, length_appendVarint, hpsl]
    omega
  -- entry bytes read
  have hentry : readAt (archiveOf values es)
      (values.length + regionPre es i) es[i].marshalVT.length =
      some es[i].marshalVT := by
    have hA : archiveOf values es =
        (values ++ indexRegion (es.take i)) ++
          (es[i].marshalVT ++ (appendVarint es[i].marshalVT.length ++
            (post ++ posTable (posList es values.length) es.length))) := by
      simp only [archiveOf, hregion, framedEntry, List.append_assoc]
    rw [hA]
    exact readAt_block _ _ _ _ _ (by simp [← hpreval]) rfl
  -- now walk the function
  rw [ReadIndexEntry]
  simp only
  rw [if_neg (by omega : ¬i ≥ es.length)]
  rw [if_neg (show ¬i > (2 ^ 64 - 1 - (values.length + (indexRegion es).length)) / 8 by
    rw [hmax] at hfs
    omega)]
  rw [if_neg (by rw [hmax] at hfs ⊢; omega :
    ¬values.length + (indexRegion es).length + 8 * i > maxInt64)]
  rw [hslot]
  simp only
  rw [getUint64LE_put, hpsi]
  have hsm : (values.length + regionPre es i + es[i].marshalVT.length) % 2 ^ 64 =
      values.length + regionPre es i + es[i].marshalVT.length := by
    apply Nat.mod_eq_of_lt
    rw [hmax] at hfs
    omega
  rw [hsm]
  rw [if_neg (by rw [hmax] at hfs ⊢; omega :
    ¬values.length + regionPre es i + es[i].marshalVT.length > maxInt64)]
  rw [hwindow]
  simp only
  rw [consumeVarint_take _ 10 _ (by omega) (by
    have := sizeOfVarint_le_ten es[i].marshalVT.length (by omega)
    omega)]
  simp only
  rw [if_neg (by omega : ¬es[i].marshalVT.length > maxIndexEntrySize)]
  rw [if_neg (by omega :
    ¬values.length + regionPre es i + es[i].marshalVT.length < es[i].marshalVT.length)]
  have hdiff : values.length + regionPre es i + es[i].marshalVT.length -
      es[i].marshalVT.length = values.length + regionPre es i := by omega
  rw [hdiff]
  rw [if_neg (by rw [hmax] at hfs ⊢; omega :
    ¬values.length + regionPre es i > maxInt64)]
  rw [hentry]
  simp only
  obtain ⟨hu, ho, hs2⟩ := hwf es[i] hmem
  rw [unmarshalVT_marshalVT es[i] hu (by
    have := keyLen_le_sizeVT es[i]
    omega) ho hs2]
  simp only
  rw [if_neg (by
    have := hoff es[i] hmem
    omega : ¬(es[i]).offset > values.length + regionPre es i)]

theorem sizeOfVarint_le_of_lt : ∀ (k v : Nat), v < 2 ^ (7 * (k + 1)) →
    sizeOfVarint v ≤ k + 1 := by
  intro k
  induction k with
  | zero =>
    intro v hv
    norm_num at hv
    rw [sizeOfVarint_small hv]
  | succ k ih =>
    intro v hv
    by_cases hsm : v < 128
    · rw [sizeOfVarint_small hsm]; omega
    · rw [sizeOfVarint_step hsm]
      have hd : v / 128 < 2 ^ (7 * (k + 1)) := by
        rw [Nat.div_lt_iff_lt_mul (by norm_num)]
        calc v < 2 ^ (7 * (k + 1 + 1)) := hv
          _ = 2 ^ (7 * (k + 1)) * 128 := by ring
      have := ih (v / 128) hd
      omega

theorem regionPre_zero (es : List IndexEntry) : regionPre es 0 = 0 := by
  simp [regionPre, indexRegion]

/-- `BuildReader` on a writer-laid-out archive with at least one entry
recovers the entry count, positions-table position, and first-entry
position. -/
theorem BuildReader_archive (values : List Nat) (es : List IndexEntry)
    (hsz : ∀ e ∈ es, e.sizeVT ≤ maxIndexEntrySize)
    (hN : 1 ≤ es.length)
    (hfs : (archiveOf values es).length ≤ maxInt64) :
    BuildReader (archiveOf values es) (archiveOf values es).length =
      .ok ⟨es.length, values.length + (indexRegion es).length, values.length⟩ := by
  have hmax : maxInt64 = 2 ^ 63 - 1 := rfl
  have hmies : maxIndexEntrySize = 2048 := rfl
  have hlenA : (archiveOf values es).length =
      values.length + (indexRegion es).length + 8 * (es.length + 1) := by
    simp only [archiveOf, List.length_append, length_posTable, posList_length]
    omega
  have hpsl : (posList es values.length).length = es.length := posList_length es values.length
  obtain ⟨post, hregion⟩ := indexRegion_slice es 0 (by omega)
  have hmem : es[0] ∈ es := List.getElem_mem (by omega)
  have hL : es[0].marshalVT.length = es[0].sizeVT := length_marshalVT _
  have hszi : es[0].marshalVT.length ≤ 2048 := by
    have := hsz es[0] hmem
    omega
  have hframed : (framedEntry es[0]).length =
      es[0].marshalVT.length + sizeOfVarint es[0].marshalVT.length := length_framedEntry _
  have hv1 : 1 ≤ sizeOfVarint es[0].marshalVT.length := sizeOfVarint_pos _
  have hpre : regionPre es 0 + (framedEntry es[0]).length ≤ (indexRegion es).length :=
    regionPre_le es 0 (by omega)
  have hpre0 : regionPre es 0 = 0 := regionPre_zero es
  have hpsi : (posList es values.length).get ⟨0, by omega⟩ =
      values.length + regionPre es 0 + es[0].marshalVT.length :=
    posList_get es values.length 0 (by omega)
  -- trailer read
  have htrailer : readAt (archiveOf values es)
      ((archiveOf values es).length - 8) 8 = some (putUint64LE es.length) := by
    have hA : archiveOf values es =
        (values ++ (indexRegion es ++ (List.map putUint64LE (posList es values.length)).flatten)) ++
          (putUint64LE es.length ++ []) := by
      simp only [archiveOf, posTable_eq, List.append_assoc, List.append_nil]
    rw [hA]
    refine readAt_block _ _ _ _ _ ?_ (by rw [length_putUint64LE])
    simp only [List.length_append, length_flatten_put, hpsl, length_putUint64LE,
      List.length_nil]
    omega
  -- first slot read
  obtain ⟨pre8, post8, htab, hpre8⟩ := flatten_put_slice (posList es values.length) 0 (by omega)
  have hpre8nil : pre8 = [] := List.eq_nil_of_length_eq_zero (by omega)
  have hslot0 : readAt (archiveOf values es)
      (values.length + (indexRegion es).length) 8 =
      some (putUint64LE ((posList es values.length).get ⟨0, by omega⟩)) := by
    have hA : archiveOf values es =
        (values ++ indexRegion es) ++
          (putUint64LE ((posList es values.length).get ⟨0, by omega⟩) ++
            (post8 ++ putUint64LE es.length)) := by
      subst hpre8nil
      simp only [List.nil_append] at htab
      simp only [archiveOf, posTable_eq, htab, List.append_assoc, List.get_eq_getElem]
    rw [hA]
    exact readAt_block _ _ _ _ _ (by simp) (by rw [length_putUint64LE])
  -- varint window read at the first entry's varint position
  have hwindow : readAt (archiveOf values es)
      (values.length + regionPre es 0 + es[0].marshalVT.length) 8 =
      some ((appendVarint es[0].marshalVT.length ++
        (post ++ posTable (posList es values.length) es.length)).take 8) := by
    have hA : archiveOf values es =
        (values ++ indexRegion (es.take 0) ++ es[0].marshalVT) ++
          (appendVarint es[0].marshalVT.length ++
            (post ++ posTable (posList es values.length) es.length)) := by
      simp only [archiveOf, hregion, framedEntry, List.append_assoc]
    rw [hA]
    refine readAt_window _ _ _ _ ?_ ?_
    · simp only [List.length_append]
      have hrp : (indexRegion (es.take 0)).length = regionPre es 0 := rfl
      omega
    · simp only [List.length_append, length_posTable, length_appendVarint, hpsl]
      omega
  -- walk BuildReader
  rw [BuildReader]
  rw [if_neg (by omega : ¬(archiveOf values es).length = 0)]
  rw [if_neg (by omega : ¬(archiveOf values es).length < 8)]
  rw [if_neg (by omega : ¬(archiveOf values es).length > maxInt64)]
  simp only
  rw [htrailer]
  simp only
  rw [getUint64LE_put]
  have hNsm : es.length % 2 ^ 64 = es.length := by
    apply Nat.mod_eq_of_lt
    rw [hmax] at hfs
    omega
  rw [hNsm]
  rw [if_neg (by rw [hmax] at hfs; omega : ¬es.length > (2 ^ 64 - 1) / 8)]
  rw [if_neg (by omega : ¬es.length * 8 > (archiveOf values es).length - 8)]
  have hidxpos : (archiveOf values es).length - 8 - es.length * 8 =
      values.length + (indexRegion es).length := by omega
  rw [hidxpos]
  rw [if_neg (by rw [hmax] at hfs ⊢; omega :
    ¬values.length + (indexRegion es).length > maxInt64)]
  rw [hslot0]
  simp only
  rw [getUint64LE_put, hpsi]
  have hsm : (values.length + regionPre es 0 + es[0].marshalVT.length) % 2 ^ 64 =
      values.length + regionPre es 0 + es[0].marshalVT.length := by
    apply Nat.mod_eq_of_lt
    rw [hmax] at hfs
    omega
  rw [hsm]
  rw [if_neg (by rw [hmax] at hfs ⊢; omega :
    ¬values.length + regionPre es 0 + es[0].marshalVT.length > maxInt64)]
  rw [hwindow]
  simp only
  rw [consumeVarint_take _ 8 _ (by omega) (by
    have := sizeOfVarint_le_of_lt 1 es[0].marshalVT.length (by norm_num; omega)
    omega)]
  simp only
  rw [if_neg (by omega : ¬es[0].marshalVT.length > maxIndexEntrySize)]
  rw [if_neg (by omega :
    ¬values.length + regionPre es 0 + es[0].marshalVT.length < es[0].marshalVT.length)]
  have hdiff : values.length + regionPre es 0 + es[0].marshalVT.length -
      es[0].marshalVT.length = values.length := by omega
  rw [hdiff]

/-- Postcondition of the exact binary-search loop over a strictly
key-sorted entry list read back via `ReadIndexEntry`. -/
theorem SearchKeyLoop_spec (file : List Nat) (r : ReaderState) (key : List Nat)
    (es : List IndexEntry)
    (Hread : ∀ x (hx : x < es.length), ReadIndexEntry file r x = .ok es[x])
    (Hsorted : List.Pairwise (fun a b => a.key < b.key) es) :
    ∀ (n i j : Nat), j - i ≤ n → i ≤ j → j ≤ es.length →
    (∀ x (hx : x < es.length), x < i → (es[x]).key < key) →
    (∀ x (hx : x < es.length), j ≤ x → key < (es[x]).key) →
    (∃ x, ∃ hx : x < es.length, (es[x]).key = key ∧
        SearchKeyLoop file r key i j = .ok (some es[x], (x : Int))) ∨
    (∃ m : Nat, SearchKeyLoop file r key i j = .ok (none, (m : Int)) ∧
        i ≤ m ∧ m ≤ j ∧
        (∀ x (hx : x < es.length), x < m → (es[x]).key < key) ∧
        (∀ x (hx : x < es.length), m ≤ x → key < (es[x]).key)) := by
  have hpair : ∀ (x y : Nat) (hx : x < es.length) (hy : y < es.length), x < y →
      (es[x]).key < (es[y]).key := by
    intro x y hx hy hxy
    exact List.pairwise_iff_getElem.mp Hsorted x y hx hy hxy
  intro n
  induction n with
  | zero =>
    intro i j hn hij hjN hlo hhi
    have hji : i = j := by omega
    subst hji
    right
    refine ⟨i, ?_, le_refl i, le_refl i, hlo, hhi⟩
    rw [SearchKeyLoop, dif_neg (by omega)]
  | succ n ihn =>
    intro i j hn hij hjN hlo hhi
    by_cases hcond : i < j
    · have hh : i + (j - i) / 2 < es.length := by omega
      rw [SearchKeyLoop, dif_pos hcond]
      simp only
      rw [Hread (i + (j - i) / 2) hh]
      simp only
      rcases hcmp : bytesCompare (es[i + (j - i) / 2]).key key with - | - | -
      · -- lt: all up to the midpoint are below the key
        simp only
        have hmidlt : (es[i + (j - i) / 2]).key < key :=
          (bytesCompare_lt_iff_lt _ _).mp hcmp
        have hlo2 : ∀ x (hx : x < es.length), x < i + (j - i) / 2 + 1 →
            (es[x]).key < key := by
          intro x hx hxlt
          by_cases hxe : x = i + (j - i) / 2
          · subst hxe; exact hmidlt
          · exact lt_trans (hpair x _ hx hh (by omega)) hmidlt
        rcases ihn (i + (j - i) / 2 + 1) j (by omega) (by omega) hjN hlo2 hhi with
          ⟨x, hx, hk, heq⟩ | ⟨m, heq, hm1, hm2, hlo3, hhi3⟩
        · exact Or.inl ⟨x, hx, hk, heq⟩
        · exact Or.inr ⟨m, heq, by omega, hm2, hlo3, hhi3⟩
      · -- eq: found
        simp only
        left
        exact ⟨i + (j - i) / 2, hh, (bytesCompare_eq_iff _ _).mp hcmp, rfl⟩
      · -- gt: all from the midpoint on are above the key
        simp only
        have hmidgt : key < (es[i + (j - i) / 2]).key :=
          (bytesCompare_gt_iff_lt _ _).mp hcmp
        have hhi2 : ∀ x (hx : x < es.length), i + (j - i) / 2 ≤ x →
            key < (es[x]).key := by
          intro x hx hxge
          by_cases hxe : x = i + (j - i) / 2
          · subst hxe; exact hmidgt
          · exact lt_trans hmidgt (hpair _ x hh hx (by omega))
        rcases ihn i (i + (j - i) / 2) (by omega) (by omega) (by omega) hlo hhi2 with
          ⟨x, hx, hk, heq⟩ | ⟨m, heq, hm1, hm2, hlo3, hhi3⟩
        · exact Or.inl ⟨x, hx, hk, heq⟩
        · exact Or.inr ⟨m, heq, hm1, by omega, hlo3, hhi3⟩
    · have hji : i = j := by omega
      subst hji
      right
      refine ⟨i, ?_, le_refl i, le_refl i, hlo, hhi⟩
      rw [SearchKeyLoop, dif_neg (by omega)]

theorem le_of_pre (p k : List Nat) (h : p <+: k) : p ≤ k :=
  le_of_not_lt fun hlt => not_lex_of_pre p k h hlt

theorem lt_of_pre_of_gt (p a w : List Nat) (hna : ¬p <+: a) (hpa : p < a)
    (hw : p <+: w) : w < a :=
  lex_all_of_gt p a hna hpa w hw

theorem not_pre_of_lt_pre {p k : List Nat} (h : k < p) : ¬p <+: k := fun hc =>
  absurd h (not_lt_of_le (le_of_pre p k hc))

theorem goHasPrefix_false_iff (s pre : List Nat) :
    goHasPrefix s pre = false ↔ ¬pre <+: s := by
  rw [← goHasPrefix_iff]
  cases goHasPrefix s pre <;> simp

/-- Postcondition of the prefix binary-search loop in first-match mode
(`last = false`) over a strictly key-sorted entry list. -/
theorem SearchPrefixLoopFirst_spec (file : List Nat) (r : ReaderState)
    (pre : List Nat) (es : List IndexEntry)
    (Hread : ∀ x (hx : x < es.length), ReadIndexEntry file r x = .ok es[x])
    (Hsorted : List.Pairwise (fun a b => a.key < b.key) es) :
    ∀ (n : Nat) (i j : Int) (matched : Option (IndexEntry × Int)),
    (j + 1 - i).toNat ≤ n → 0 ≤ i → i ≤ j + 1 → j < (es.length : Int) →
    (∀ x (hx : x < es.length), (x : Int) < i → (es[x]).key < pre) →
    (∀ e idx, matched = some (e, idx) → 0 ≤ idx ∧ ∃ hx : idx.toNat < es.length,
      e = es[idx.toNat] ∧ pre <+: e.key ∧
      (∀ x (hx : x < es.length), pre <+: (es[x]).key → j < (x : Int) →
        idx ≤ (x : Int))) →
    (matched = none → ∀ x (hx : x < es.length), j < (x : Int) →
      ¬pre <+: (es[x]).key ∧ pre < (es[x]).key) →
    (∃ x : Nat, ∃ hx : x < es.length,
      SearchPrefixLoop file r pre false i j matched = .ok (some es[x], (x : Int)) ∧
      pre <+: (es[x]).key ∧
      (∀ y (hy : y < es.length), pre <+: (es[y]).key → x ≤ y)) ∨
    (∃ m : Nat, SearchPrefixLoop file r pre false i j matched = .ok (none, (m : Int)) ∧
      m ≤ es.length ∧
      (∀ x (hx : x < es.length), x < m → (es[x]).key < pre) ∧
      (∀ x (hx : x < es.length), m ≤ x → pre < (es[x]).key) ∧
      (∀ x (hx : x < es.length), ¬pre <+: (es[x]).key)) := by
  have hpair : ∀ (x y : Nat) (hx : x < es.length) (hy : y < es.length), x < y →
      (es[x]).key < (es[y]).key := fun x y hx hy hxy =>
    List.pairwise_iff_getElem.mp Hsorted x y hx hy hxy
  intro n
  induction n with
  | zero =>
    intro i j matched hn h0 hij hjN hlow hcand hnone
    have hex : ¬i ≤ j := by omega
    rw [SearchPrefixLoop.eq_def, dif_neg hex]
    match matched with
    | some (e, idx) =>
      obtain ⟨hidx0, hx, he, hpe, hmin⟩ := hcand e idx rfl
      left
      refine ⟨idx.toNat, hx, ?_, by rw [← he]; exact hpe, ?_⟩
      · simp only
        rw [he]
        congr 1
        congr 1
        omega
      · intro y hy hpy
        have := hmin y hy hpy (by
          by_contra hc
          push_neg at hc
          have := hlow y hy (by omega)
          exact absurd hpy (not_pre_of_lt_pre this))
        omega
    | none =>
      right
      refine ⟨i.toNat, ?_, by omega, ?_, ?_, ?_⟩
      · simp only
        congr 2
        omega
      · intro x hx hxm
        exact hlow x hx (by omega)
      · intro x hx hxm
        exact (hnone rfl x hx (by omega)).2
      · intro x hx
        by_cases hxi : (x : Int) < i
        · exact not_pre_of_lt_pre (hlow x hx hxi)
        · exact (hnone rfl x hx (by omega)).1
  | succ n ihn =>
    intro i j matched hn h0 hij hjN hlow hcand hnone
    by_cases hcond : i ≤ j
    · rw [SearchPrefixLoop.eq_def, dif_pos hcond]
      have hhr : 0 ≤ i + (j - i) / 2 ∧ i + (j - i) / 2 ≤ j := by
        constructor <;> omega
      have hhN : (i + (j - i) / 2).toNat < es.length := by omega
      simp only
      rw [Hread (i + (j - i) / 2).toNat hhN]
      simp only
      rcases hmp : goHasPrefix (es[(i + (j - i) / 2).toNat]).key pre with - | -
      · -- no prefix at midpoint
        have hnp : ¬pre <+: (es[(i + (j - i) / 2).toNat]).key :=
          (goHasPrefix_false_iff _ _).mp hmp
        rcases hcmp : bytesCompare (es[(i + (j - i) / 2).toNat]).key pre with - | - | -
        · -- key < prefix: go right
          simp only
          have hmlt : (es[(i + (j - i) / 2).toNat]).key < pre :=
            (bytesCompare_lt_iff_lt _ _).mp hcmp
          refine ihn (i + (j - i) / 2 + 1) j matched (by omega) (by omega) (by omega)
            hjN ?_ hcand hnone
          intro x hx hxlt
          by_cases hxe : x = (i + (j - i) / 2).toNat
          · subst hxe; exact hmlt
          · by_cases hxi : (x : Int) < i
            · exact hlow x hx hxi
            · exact lt_trans (hpair x _ hx hhN (by omega)) hmlt
        · -- key = prefix: impossible without the prefix
          exact absurd (by rw [(bytesCompare_eq_iff _ _).mp hcmp]) hnp
        · -- key > prefix: go left, everything from here on is non-matching
          simp only
          have hmgt : pre < (es[(i + (j - i) / 2).toNat]).key :=
            (bytesCompare_gt_iff_lt _ _).mp hcmp
          have hnomatch : ∀ x (hx : x < es.length), i + (j - i) / 2 - 1 < (x : Int) →
              ¬pre <+: (es[x]).key ∧ pre < (es[x]).key := by
            intro x hx hxgt
            by_cases hxe : x = (i + (j - i) / 2).toNat
            · subst hxe; exact ⟨hnp, hmgt⟩
            · have hgt : (es[(i + (j - i) / 2).toNat]).key < (es[x]).key :=
                hpair _ x hhN hx (by omega)
              constructor
              · intro hc
                exact absurd (lt_of_pre_of_gt pre _ _ hnp hmgt hc)
                  (not_lt_of_le (le_of_lt hgt))
              · exact lt_trans hmgt hgt
          refine ihn i (i + (j - i) / 2 - 1) matched (by omega) h0 (by omega)
            (by omega) hlow ?_ ?_
          · intro e idx hme
            obtain ⟨hidx0, hx, he, hpe, hmin⟩ := hcand e idx hme
            refine ⟨hidx0, hx, he, hpe, ?_⟩
            intro x hx2 hpx hgt
            exact absurd hpx (hnomatch x hx2 hgt).1
          · intro hme x hx hgt
            exact hnomatch x hx hgt
      · -- prefix matches at midpoint: record and go left
        have hp : pre <+: (es[(i + (j - i) / 2).toNat]).key :=
          (goHasPrefix_iff _ _).mp hmp
        simp only
        refine ihn i (i + (j - i) / 2 - 1)
          (some (es[(i + (j - i) / 2).toNat], i + (j - i) / 2)) (by omega) h0
          (by omega) (by omega) hlow ?_ (by intro hc; exact absurd hc (by simp))
        intro e idx hme
        simp only [Option.some.injEq, Prod.mk.injEq] at hme
        obtain ⟨he, hidx⟩ := hme
        subst hidx
        refine ⟨by omega, hhN, ?_, ?_, ?_⟩
        · rw [← he]
        · rw [← he]; exact hp
        · intro x hx2 hpx hgt
          omega
    · have hex : i = j + 1 := by omega
      rw [SearchPrefixLoop.eq_def, dif_neg hcond]
      match matched with
      | some (e, idx) =>
        obtain ⟨hidx0, hx, he, hpe, hmin⟩ := hcand e idx rfl
        left
        refine ⟨idx.toNat, hx, ?_, by rw [← he]; exact hpe, ?_⟩
        · simp only
          rw [he]
          congr 1
          congr 1
          omega
        · intro y hy hpy
          have := hmin y hy hpy (by
            by_contra hc
            push_neg at hc
            have := hlow y hy (by omega)
            exact absurd hpy (not_pre_of_lt_pre this))
          omega
      | none =>
        right
        refine ⟨i.toNat, ?_, by omega, ?_, ?_, ?_⟩
        · simp only
          congr 2
          omega
        · intro x hx hxm
          exact hlow x hx (by omega)
        · intro x hx hxm
          exact (hnone rfl x hx (by omega)).2
        · intro x hx
          by_cases hxi : (x : Int) < i
          · exact not_pre_of_lt_pre (hlow x hx hxi)
          · exact (hnone rfl x hx (by omega)).1

/-- Postcondition of the prefix binary-search loop in last-match mode
(`last = true`) over a strictly key-sorted entry list. -/
theorem SearchPrefixLoopLast_spec (file : List Nat) (r : ReaderState)
    (pre : List Nat) (es : List IndexEntry)
    (Hread : ∀ x (hx : x < es.length), ReadIndexEntry file r x = .ok es[x])
    (Hsorted : List.Pairwise (fun a b => a.key < b.key) es) :
    ∀ (n : Nat) (i j : Int) (matched : Option (IndexEntry × Int)),
    (j + 1 - i).toNat ≤ n → 0 ≤ i → i ≤ j + 1 → j < (es.length : Int) →
    (∀ x (hx : x < es.length), j < (x : Int) →
      ¬pre <+: (es[x]).key ∧ pre < (es[x]).key) →
    (∀ e idx, matched = some (e, idx) → 0 ≤ idx ∧ ∃ hx : idx.toNat < es.length,
      e = es[idx.toNat] ∧ pre <+: e.key ∧
      (∀ x (hx : x < es.length), pre <+: (es[x]).key → (x : Int) < i →
        (x : Int) ≤ idx)) →
    (matched = none → ∀ x (hx : x < es.length), (x : Int) < i →
      ¬pre <+: (es[x]).key ∧ (es[x]).key < pre) →
    (∃ x : Nat, ∃ hx : x < es.length,
      SearchPrefixLoop file r pre true i j matched = .ok (some es[x], (x : Int)) ∧
      pre <+: (es[x]).key ∧
      (∀ y (hy : y < es.length), pre <+: (es[y]).key → y ≤ x)) ∨
    (∃ m : Nat, SearchPrefixLoop file r pre true i j matched = .ok (none, (m : Int)) ∧
      m ≤ es.length ∧
      (∀ x (hx : x < es.length), x < m → (es[x]).key < pre) ∧
      (∀ x (hx : x < es.length), m ≤ x → pre < (es[x]).key) ∧
      (∀ x (hx : x < es.length), ¬pre <+: (es[x]).key)) := by
  have hpair : ∀ (x y : Nat) (hx : x < es.length) (hy : y < es.length), x < y →
      (es[x]).key < (es[y]).key := fun x y hx hy hxy =>
    List.pairwise_iff_getElem.mp Hsorted x y hx hy hxy
  intro n
  induction n with
  | zero =>
    intro i j matched hn h0 hij hjN hhigh hcand hnone
    have hex : ¬i ≤ j := by omega
    rw [SearchPrefixLoop.eq_def, dif_neg hex]
    match matched with
    | some (e, idx) =>
      obtain ⟨hidx0, hx, he, hpe, hmax⟩ := hcand e idx rfl
      left
      refine ⟨idx.toNat, hx, ?_, by rw [← he]; exact hpe, ?_⟩
      · simp only
        rw [he]
        congr 1
        congr 1
        omega
      · intro y hy hpy
        have := hmax y hy hpy (by
          by_contra hc
          push_neg at hc
          exact absurd hpy (hhigh y hy (by omega)).1)
        omega
    | none =>
      right
      refine ⟨i.toNat, ?_, by omega, ?_, ?_, ?_⟩
      · simp only
        congr 2
        omega
      · intro x hx hxm
        exact (hnone rfl x hx (by omega)).2
      · intro x hx hxm
        exact (hhigh x hx (by omega)).2
      · intro x hx
        by_cases hxi : (x : Int) < i
        · exact (hnone rfl x hx hxi).1
        · exact (hhigh x hx (by omega)).1
  | succ n ihn =>
    intro i j matched hn h0 hij hjN hhigh hcand hnone
    by_cases hcond : i ≤ j
    · rw [SearchPrefixLoop.eq_def, dif_pos hcond]
      have hhr : 0 ≤ i + (j - i) / 2 ∧ i + (j - i) / 2 ≤ j := by
        constructor <;> omega
      have hhN : (i + (j - i) / 2).toNat < es.length := by omega
      simp only
      rw [Hread (i + (j - i) / 2).toNat hhN]
      simp only
      rcases hmp : goHasPrefix (es[(i + (j - i) / 2).toNat]).key pre with - | -
      · -- no prefix at midpoint
        have hnp : ¬pre <+: (es[(i + (j - i) / 2).toNat]).key :=
          (goHasPrefix_false_iff _ _).mp hmp
        rcases hcmp : bytesCompare (es[(i + (j - i) / 2).toNat]).key pre with - | - | -
        · -- key < prefix: go right, everything up to the midpoint non-matching
          simp only
          have hmlt : (es[(i + (j - i) / 2).toNat]).key < pre :=
            (bytesCompare_lt_iff_lt _ _).mp hcmp
          have hnomatch : ∀ x (hx : x < es.length), (x : Int) < i + (j - i) / 2 + 1 →
              ¬pre <+: (es[x]).key ∧ (es[x]).key < pre := by
            intro x hx hxlt
            have hkey : (es[x]).key < pre := by
              by_cases hxe : x = (i + (j - i) / 2).toNat
              · subst hxe; exact hmlt
              · by_cases hxi : (x : Int) < i
                · rcases hmo : matched with - | ep
                  · exact (hnone hmo x hx hxi).2
                  · match ep with
                    | (e0, idx0) =>
                      exact lt_trans (hpair x _ hx hhN (by omega)) hmlt
                · exact lt_trans (hpair x _ hx hhN (by omega)) hmlt
            exact ⟨not_pre_of_lt_pre hkey, hkey⟩
          refine ihn (i + (j - i) / 2 + 1) j matched (by omega) (by omega) (by omega)
            hjN hhigh ?_ ?_
          · intro e idx hme
            obtain ⟨hidx0, hx, he, hpe, hmax⟩ := hcand e idx hme
            refine ⟨hidx0, hx, he, hpe, ?_⟩
            intro x hx2 hpx hlt
            by_cases hxi : (x : Int) < i
            · exact hmax x hx2 hpx hxi
            · exact absurd hpx (hnomatch x hx2 hlt).1
          · intro hme x hx hlt
            by_cases hxi : (x : Int) < i
            · exact hnone hme x hx hxi
            · exact hnomatch x hx hlt
        · -- key = prefix: impossible without the prefix
          exact absurd (by rw [(bytesCompare_eq_iff _ _).mp hcmp]) hnp
        · -- key > prefix: go left
          simp only
          have hmgt : pre < (es[(i + (j - i) / 2).toNat]).key :=
            (bytesCompare_gt_iff_lt _ _).mp hcmp
          refine ihn i (i + (j - i) / 2 - 1) matched (by omega) h0 (by omega)
            (by omega) ?_ hcand hnone
          intro x hx hxgt
          by_cases hxe : x = (i + (j - i) / 2).toNat
          · subst hxe; exact ⟨hnp, hmgt⟩
          · by_cases hxj : j < (x : Int)
            · exact hhigh x hx hxj
            · have hgt : (es[(i + (j - i) / 2).toNat]).key < (es[x]).key :=
                hpair _ x hhN hx (by omega)
              constructor
              · intro hc
                exact absurd (lt_of_pre_of_gt pre _ _ hnp hmgt hc)
                  (not_lt_of_le (le_of_lt hgt))
              · exact lt_trans hmgt hgt
      · -- prefix matches at midpoint: record and go right
        have hp : pre <+: (es[(i + (j - i) / 2).toNat]).key :=
          (goHasPrefix_iff _ _).mp hmp
        simp only
        refine ihn (i + (j - i) / 2 + 1) j
          (some (es[(i + (j - i) / 2).toNat], i + (j - i) / 2)) (by omega)
          (by omega) (by omega) hjN hhigh ?_
          (by intro hc; exact absurd hc (by simp))
        intro e idx hme
        simp only [Option.some.injEq, Prod.mk.injEq] at hme
        obtain ⟨he, hidx⟩ := hme
        subst hidx
        refine ⟨by omega, hhN, ?_, ?_, ?_⟩
        · rw [← he]
        · rw [← he]; exact hp
        · intro x hx2 hpx hlt
          by_cases hxi : (x : Int) < i
          · rcases hmo : matched with - | ep
            · exact absurd hpx (hnone hmo x hx2 hxi).1
            · match ep with
              | (e0, idx0) =>
                obtain ⟨hidx00, hx0, he0, hpe0, hmax0⟩ := hcand e0 idx0 hmo
                have h1 : (x : Int) ≤ idx0 := hmax0 x hx2 hpx hxi
                omega
          · omega
    · have hex : i = j + 1 := by omega
      rw [SearchPrefixLoop.eq_def, dif_neg hcond]
      match matched with
      | some (e, idx) =>
        obtain ⟨hidx0, hx, he, hpe, hmax⟩ := hcand e idx rfl
        left
        refine ⟨idx.toNat, hx, ?_, by rw [← he]; exact hpe, ?_⟩
        · simp only
          rw [he]
          congr 1
          congr 1
          omega
        · intro y hy hpy
          have := hmax y hy hpy (by
            by_contra hc
            push_neg at hc
            exact absurd hpy (hhigh y hy (by omega)).1)
          omega
      | none =>
        right
        refine ⟨i.toNat, ?_, by omega, ?_, ?_, ?_⟩
        · simp only
          congr 2
          omega
        · intro x hx hxm
          exact (hnone rfl x hx (by omega)).2
        · intro x hx hxm
          exact (hhigh x hx (by omega)).2
        · intro x hx
          by_cases hxi : (x : Int) < i
          · exact (hnone rfl x hx hxi).1
          · exact (hhigh x hx (by omega)).1

/-- `SearchIndexEntryWithKey` on a strictly key-sorted entry list: the
found case returns the entry with the key at its index, the not-found
case returns the lower-bound insertion index. -/
theorem SearchIndexEntryWithKey_spec (file : List Nat) (r : ReaderState)
    (key : List Nat) (es : List IndexEntry)
    (Hcount : r.indexEntryCount = es.length) (Hmax : es.length ≤ maxInt64)
    (Hread : ∀ x (hx : x < es.length), ReadIndexEntry file r x = .ok es[x])
    (Hsorted : List.Pairwise (fun a b => a.key < b.key) es) :
    (∃ x, ∃ hx : x < es.length, (es[x]).key = key ∧
        SearchIndexEntryWithKey file r key = .ok (some es[x], (x : Int))) ∨
    (∃ m : Nat, SearchIndexEntryWithKey file r key = .ok (none, (m : Int)) ∧
        m ≤ es.length ∧
        (∀ x (hx : x < es.length), x < m → (es[x]).key < key) ∧
        (∀ x (hx : x < es.length), m ≤ x → key < (es[x]).key)) := by
  unfold SearchIndexEntryWithKey
  rw [Hcount, if_neg (by omega : ¬es.length > maxInt64)]
  rcases SearchKeyLoop_spec file r key es Hread Hsorted es.length 0 es.length
      (by omega) (by omega) (le_refl _)
      (fun x hx hlt => absurd hlt (by omega))
      (fun x hx hge => absurd hx (by omega)) with
    ⟨x, hx, hk, heq⟩ | ⟨m, heq, hm1, hm2, hlo, hhi⟩
  · exact Or.inl ⟨x, hx, hk, heq⟩
  · exact Or.inr ⟨m, heq, hm2, hlo, hhi⟩

/-- `SearchIndexEntryWithPrefix` with a non-empty prefix in first-match
mode: the smallest matching index, or the insertion bound when no key
has the prefix. -/
theorem SearchIndexEntryWithPrefix_first_spec (file : List Nat) (r : ReaderState)
    (pre : List Nat) (es : List IndexEntry)
    (Hcount : r.indexEntryCount = es.length) (Hmax : es.length ≤ maxInt64)
    (Hpre : pre ≠ [])
    (Hread : ∀ x (hx : x < es.length), ReadIndexEntry file r x = .ok es[x])
    (Hsorted : List.Pairwise (fun a b => a.key < b.key) es) :
    (∃ x, ∃ hx : x < es.length,
      SearchIndexEntryWithPrefix file r pre false = .ok (some es[x], (x : Int)) ∧
      pre <+: (es[x]).key ∧
      (∀ y (hy : y < es.length), pre <+: (es[y]).key → x ≤ y)) ∨
    (∃ m : Nat, SearchIndexEntryWithPrefix file r pre false = .ok (none, (m : Int)) ∧
      m ≤ es.length ∧
      (∀ x (hx : x < es.length), x < m → (es[x]).key < pre) ∧
      (∀ x (hx : x < es.length), m ≤ x → pre < (es[x]).key) ∧
      (∀ x (hx : x < es.length), ¬pre <+: (es[x]).key)) := by
  unfold SearchIndexEntryWithPrefix
  rw [if_neg (by simpa using Hpre), Hcount,
    if_neg (by omega : ¬es.length > maxInt64)]
  by_cases hN : es.length = 0
  · rw [if_pos hN]
    right
    refine ⟨0, by rw [Nat.cast_zero], by omega, ?_, ?_, ?_⟩ <;>
      · intro x hx
        exact absurd hx (by omega)
  · rw [if_neg hN]
    rcases SearchPrefixLoopFirst_spec file r pre es Hread Hsorted es.length 0
        ((es.length : Int) - 1) none (by omega) (by omega) (by omega) (by omega)
        (fun x hx hlt => absurd hlt (by omega))
        (fun e idx h => absurd h (by simp))
        (fun _ x hx hgt => absurd hx (by omega)) with
      ⟨x, hx, heq, hp, hmin⟩ | ⟨m, heq, hm, hlo, hhi, hnom⟩
    · exact Or.inl ⟨x, hx, heq, hp, hmin⟩
    · exact Or.inr ⟨m, heq, hm, hlo, hhi, hnom⟩

/-- `SearchIndexEntryWithPrefix` with a non-empty prefix in last-match
mode: the largest matching index, or the insertion bound when no key
has the prefix. -/
theorem SearchIndexEntryWithPrefix_last_spec (file : List Nat) (r : ReaderState)
    (pre : List Nat) (es : List IndexEntry)
    (Hcount : r.indexEntryCount = es.length) (Hmax : es.length ≤ maxInt64)
    (Hpre : pre ≠ [])
    (Hread : ∀ x (hx : x < es.length), ReadIndexEntry file r x = .ok es[x])
    (Hsorted : List.Pairwise (fun a b => a.key < b.key) es) :
    (∃ x, ∃ hx : x < es.length,
      SearchIndexEntryWithPrefix file r pre true = .ok (some es[x], (x : Int)) ∧
      pre <+: (es[x]).key ∧
      (∀ y (hy : y < es.length), pre <+: (es[y]).key → y ≤ x)) ∨
    (∃ m : Nat, SearchIndexEntryWithPrefix file r pre true = .ok (none, (m : Int)) ∧
      m ≤ es.length ∧
      (∀ x (hx : x < es.length), x < m → (es[x]).key < pre) ∧
      (∀ x (hx : x < es.length), m ≤ x → pre < (es[x]).key) ∧
      (∀ x (hx : x < es.length), ¬pre <+: (es[x]).key)) := by
  unfold SearchIndexEntryWithPrefix
  rw [if_neg (by simpa using Hpre), Hcount,
    if_neg (by omega : ¬es.length > maxInt64)]
  by_cases hN : es.length = 0
  · rw [if_pos hN]
    right
    refine ⟨0, by rw [Nat.cast_zero], by omega, ?_, ?_, ?_⟩ <;>
      · intro x hx
        exact absurd hx (by omega)
  · rw [if_neg hN]
    rcases SearchPrefixLoopLast_spec file r pre es Hread Hsorted es.length 0
        ((es.length : Int) - 1) none (by omega) (by omega) (by omega) (by omega)
        (fun x hx hgt => absurd hx (by omega))
        (fun e idx h => absurd h (by simp))
        (fun _ x hx hlt => absurd hlt (by omega)) with
      ⟨x, hx, heq, hp, hmax⟩ | ⟨m, heq, hm, hlo, hhi, hnom⟩
    · exact Or.inl ⟨x, hx, heq, hp, hmax⟩
    · exact Or.inr ⟨m, heq, hm, hlo, hhi, hnom⟩

/-- `SearchIndexEntryWithPrefix` with the empty prefix in first mode:
the entry at index 0, or `(none, 0)` on an empty index. -/
theorem SearchIndexEntryWithPrefix_empty_first (file : List Nat) (r : ReaderState)
    (es : List IndexEntry)
    (Hcount : r.indexEntryCount = es.length) (Hmax : es.length ≤ maxInt64)
    (Hread : ∀ x (hx : x < es.length), ReadIndexEntry file r x = .ok es[x]) :
    SearchIndexEntryWithPrefix file r [] false =
      if h : 0 < es.length then .ok (some es[0], 0) else .ok (none, 0) := by
  unfold SearchIndexEntryWithPrefix
  rw [if_pos (by simp), Hcount, if_neg (by omega : ¬es.length > maxInt64)]
  simp only [Bool.false_eq_true, if_false]
  by_cases h : 0 < es.length
  · rw [if_pos (by exact_mod_cast h), Hread 0 h, dif_pos h]
  · rw [if_neg (by exact_mod_cast h), dif_neg h]

/-- `SearchIndexEntryWithPrefix` with the empty prefix in last mode:
the entry at the final index, or `(none, -1)` on an empty index. -/
theorem SearchIndexEntryWithPrefix_empty_last (file : List Nat) (r : ReaderState)
    (es : List IndexEntry)
    (Hcount : r.indexEntryCount = es.length) (Hmax : es.length ≤ maxInt64)
    (Hread : ∀ x (hx : x < es.length), ReadIndexEntry file r x = .ok es[x]) :
    SearchIndexEntryWithPrefix file r [] true =
      if h : 0 < es.length then
        .ok (some es[es.length - 1], (es.length : Int) - 1)
      else .ok (none, -1) := by
  unfold SearchIndexEntryWithPrefix
  rw [if_pos (by simp), Hcount, if_neg (by omega : ¬es.length > maxInt64)]
  simp only [if_true]
  by_cases h : 0 < es.length
  · rw [if_neg (show ¬(es.length : Int) = 0 by exact_mod_cast (by omega : ¬es.length = 0))]
    have ht : ((es.length : Int) - 1).toNat = es.length - 1 := by omega
    rw [ht, Hread (es.length - 1) (by omega), dif_pos h]
  · rw [if_pos (show (es.length : Int) = 0 by exact_mod_cast (by omega : es.length = 0)),
      dif_neg h]

/-- The `(entry, index)` pairs for `len` consecutive entries starting at
index `i`. -/
def pairsFrom (es : List IndexEntry) (i len : Nat) : List (IndexEntry × Int) :=
  (((es.drop i).take len).zip (List.range' i len)).map fun p => (p.1, (p.2 : Int))

theorem pairsFrom_zero (es : List IndexEntry) (i : Nat) : pairsFrom es i 0 = [] := by
  simp [pairsFrom]

theorem pairsFrom_succ (es : List IndexEntry) (i len : Nat) (h : i < es.length) :
    pairsFrom es i (len + 1) = (es[i], (i : Int)) :: pairsFrom es (i + 1) len := by
  unfold pairsFrom
  rw [List.drop_eq_getElem_cons h, List.range'_succ, List.take_succ_cons,
    List.zip_cons_cons, List.map_cons]

theorem length_pairsFrom (es : List IndexEntry) (i len : Nat)
    (h : i + len ≤ es.length) : (pairsFrom es i len).length = len := by
  simp only [pairsFrom, List.length_map, List.length_zip, List.length_take,
    List.length_drop, List.length_range']
  omega

theorem pairsFrom_getElem (es : List IndexEntry) (i len : Nat)
    (h : i + len ≤ es.length) (k : Nat) (hk : k < len)
    (hk2 : k < (pairsFrom es i len).length) (hik : i + k < es.length) :
    (pairsFrom es i len)[k] = (es[i + k], ((i + k : Nat) : Int)) := by
  induction len generalizing i k with
  | zero => omega
  | succ len ih =>
    simp only [pairsFrom_succ es i len (by omega)]
    match k with
    | 0 => simp
    | k + 1 =>
      simp only [List.getElem_cons_succ]
      rw [ih (i + 1) (by omega) k (by omega)
        (by rw [length_pairsFrom es (i + 1) len (by omega)]; omega) (by omega)]
      congr 2 <;> omega

/-- The forward scan loop visits the maximal run of prefix-matching
entries starting at `i`, in index order. -/
theorem ScanLoop_run (file : List Nat) (r : ReaderState) (pre : List Nat)
    (es : List IndexEntry)
    (Hread : ∀ x (hx : x < es.length), ReadIndexEntry file r x = .ok es[x]) :
    ∀ (n i : Nat) (acc : List (IndexEntry × Int)), es.length - i ≤ n →
    i ≤ es.length →
    ∃ stop, i ≤ stop ∧ stop ≤ es.length ∧
      (∀ x (hx : x < es.length), i ≤ x → x < stop → pre <+: (es[x]).key) ∧
      (∀ h : stop < es.length, ¬pre <+: (es[stop]).key) ∧
      ScanLoop file r pre i es.length acc = .ok (acc ++ pairsFrom es i (stop - i)) := by
  intro n
  induction n with
  | zero =>
    intro i acc hn hi
    have : i = es.length := by omega
    subst this
    refine ⟨es.length, le_refl _, le_refl _, by omega, fun h => absurd h (by omega), ?_⟩
    rw [ScanLoop, dif_neg (by omega)]
    simp [pairsFrom_zero]
  | succ n ihn =>
    intro i acc hn hi
    by_cases hcond : i < es.length
    · rw [ScanLoop, dif_pos hcond, Hread i hcond]
      simp only
      rcases hmp : goHasPrefix (es[i]).key pre with - | -
      · refine ⟨i, le_refl _, by omega, by omega, ?_, ?_⟩
        · intro h
          exact (goHasPrefix_false_iff _ _).mp hmp
        · simp [pairsFrom_zero]
      · obtain ⟨stop, h1, h2, h3, h4, h5⟩ := ihn (i + 1) (acc ++ [(es[i], (i : Int))])
          (by omega) (by omega)
        refine ⟨stop, by omega, h2, ?_, h4, ?_⟩
        · intro x hx hix hxs
          by_cases hxe : x = i
          · subst hxe
            exact (goHasPrefix_iff _ _).mp hmp
          · exact h3 x hx (by omega) hxs
        · rw [h5]
          have hsi : stop - i = (stop - (i + 1)) + 1 := by omega
          rw [hsi, pairsFrom_succ es i _ hcond]
          simp
    · have : i = es.length := by omega
      subst this
      refine ⟨es.length, le_refl _, le_refl _, by omega, fun h => absurd h (by omega), ?_⟩
      rw [ScanLoop, dif_neg (by omega)]
      simp [pairsFrom_zero]

/-- Keys sharing a prefix occupy a contiguous interval of a sorted key
sequence: anything between two prefixed keys is prefixed. -/
theorem pre_between (p a b c : List Nat) (hab : a ≤ b) (hbc : b ≤ c)
    (ha : p <+: a) (hc : p <+: c) : p <+: b := by
  by_contra hnb
  rcases lt_or_le b p with hlt | hle
  · exact absurd (lt_of_lt_of_le hlt (le_of_pre p a ha)) (not_lt_of_le hab)
  · have hbp : p < b := lt_of_le_of_ne hle (by
      intro he
      exact hnb (he ▸ List.prefix_refl p))
    exact absurd (lt_of_lt_of_le (lt_of_pre_of_gt p b c hnb hbp hc) hbc)
      (lt_irrefl c)

/-- `ScanPrefixEntries` on a strictly key-sorted index: the callback is
invoked exactly on the contiguous run of prefix-matching entries, in
ascending index order. -/
theorem ScanPrefixEntries_spec (file : List Nat) (r : ReaderState)
    (pre : List Nat) (es : List IndexEntry)
    (Hcount : r.indexEntryCount = es.length) (Hmax : es.length ≤ maxInt64)
    (Hpre : pre ≠ [])
    (Hread : ∀ x (hx : x < es.length), ReadIndexEntry file r x = .ok es[x])
    (Hsorted : List.Pairwise (fun a b => a.key < b.key) es) :
    ∃ lo len, lo + len ≤ es.length ∧
      ScanPrefixEntries file r pre = .ok (pairsFrom es lo len) ∧
      (∀ x (hx : x < es.length), pre <+: (es[x]).key ↔ lo ≤ x ∧ x < lo + len) := by
  have hpair : ∀ (x y : Nat) (hx : x < es.length) (hy : y < es.length), x < y →
      (es[x]).key < (es[y]).key := fun x y hx hy hxy =>
    List.pairwise_iff_getElem.mp Hsorted x y hx hy hxy
  unfold ScanPrefixEntries
  rcases SearchIndexEntryWithPrefix_first_spec file r pre es Hcount Hmax Hpre
      Hread Hsorted with
    ⟨x, hx, heq, hp, hmin⟩ | ⟨m, heq, hm, hlo, hhi, hnom⟩
  · rw [heq]
    simp only
    rw [Hcount, if_neg (by omega : ¬es.length > maxInt64)]
    obtain ⟨stop, h1, h2, h3, h4, h5⟩ := ScanLoop_run file r pre es Hread
      es.length (x + 1) [(es[x], (x : Int))] (by omega) (by omega)
    have hxt : ((x : Int)).toNat = x := by omega
    rw [hxt, h5]
    refine ⟨x, stop - x, by omega, ?_, ?_⟩
    · have hsx : stop - x = (stop - (x + 1)) + 1 := by omega
      rw [hsx, pairsFrom_succ es x _ hx]
      simp
    · intro y hy
      constructor
      · intro hpy
        have hxy : x ≤ y := hmin y hy hpy
        constructor
        · exact hxy
        · by_contra hc
          push_neg at hc
          have hstop : stop < es.length := by omega
          have hstopy : stop ≤ y := by omega
          have : pre <+: (es[stop]).key := by
            rcases Nat.eq_or_lt_of_le hstopy with he | hlt2
            · subst he
              exact hpy
            · exact pre_between pre (es[x]).key (es[stop]).key (es[y]).key
                (le_of_lt (hpair x stop hx hstop (by omega)))
                (le_of_lt (hpair stop y hstop hy hlt2)) hp hpy
          exact absurd this (h4 hstop)
      · intro ⟨hxy, hys⟩
        rcases Nat.eq_or_lt_of_le hxy with he | hlt2
        · subst he
          exact hp
        · exact h3 y hy (by omega) (by omega)
  · rw [heq]
    simp only
    refine ⟨0, 0, by omega, by rw [pairsFrom_zero], ?_⟩
    intro y hy
    constructor
    · intro hpy
      exact absurd hpy (hnom y hy)
    · intro ⟨h1, h2⟩
      omega

theorem keys_entriesExact : ∀ (keys : List (List Nat))
    (wv : List Nat → List Nat × Nat) (pos : Nat),
    (entriesExact keys wv pos).map IndexEntry.key = keys
  | [], _, _ => rfl
  | k :: ks, wv, pos => by
    rw [entriesExact, List.map_cons, keys_entriesExact ks wv _]

/-- Adjacent-duplicate check passes outright when the keys are pairwise
distinct. -/
theorem chainOk_of_nodup_keys : ∀ (es : List IndexEntry) (prev : Option (List Nat)),
    (∀ e ∈ es, prev ≠ some e.key) → (es.map IndexEntry.key).Nodup →
    chainOk prev es = true
  | [], _, _, _ => rfl
  | e :: es, prev, hp, hnd => by
    rw [chainOk, Bool.and_eq_true, decide_eq_true_eq]
    simp only [List.map_cons, List.nodup_cons] at hnd
    refine ⟨hp e (by simp), chainOk_of_nodup_keys es (some e.key) ?_ hnd.2⟩
    intro e2 he2 hc
    simp only [Option.some.injEq] at hc
    exact hnd.1 (hc ▸ List.mem_map_of_mem IndexEntry.key he2)

/-- Stable-sorting entries with pairwise-distinct keys yields a strictly
key-sorted list. -/
theorem mergeSort_pairwise_lt (index : List IndexEntry)
    (hnd : (index.map IndexEntry.key).Nodup) :
    List.Pairwise (fun a b => a.key < b.key) (index.mergeSort entryLe) := by
  have hle : List.Pairwise (fun a b => entryLe a b = true) (index.mergeSort entryLe) :=
    List.sorted_mergeSort entryLe_trans entryLe_total index
  have hperm : (index.mergeSort entryLe).Perm index := List.mergeSort_perm index entryLe
  have hndS : ((index.mergeSort entryLe).map IndexEntry.key).Nodup :=
    ((hperm.map IndexEntry.key).nodup_iff).mpr hnd
  have hne : List.Pairwise (fun a b : IndexEntry => a.key ≠ b.key)
      (index.mergeSort entryLe) := (List.pairwise_map).mp hndS
  exact (hle.and hne).imp fun h =>
    lt_of_le_of_ne ((entryLe_iff _ _).mp h.1) h.2

/-- `chainOk` fails when the sorted entries contain a duplicated key. -/
theorem chainOk_eq_false_of_dup (es : List IndexEntry)
    (hle : List.Pairwise (fun a b => entryLe a b = true) es)
    (hdup : ¬(es.map IndexEntry.key).Nodup) :
    ∀ prev, chainOk prev es = false := by
  induction es with
  | nil => exact absurd List.nodup_nil hdup
  | cons e es ih =>
    intro prev
    rw [chainOk, Bool.and_eq_false_iff]
    simp only [List.map_cons, List.nodup_cons, not_and_or] at hdup
    rcases hdup with hmem | hrest
    · right
      simp only [not_not] at hmem
      obtain ⟨e2, he2, hk2⟩ := List.mem_map.mp hmem
      -- e2 has e's key and follows it; the whole run up to e2 shares the key
      have hlee : entryLe e e2 = true := (List.pairwise_cons.mp hle).1 e2 he2
      have hkey : e2.key ≤ e.key := le_of_eq hk2
      -- walk the tail: the first element must already repeat the key
      clear ih
      induction es with
      | nil => exact absurd he2 (List.not_mem_nil e2)
      | cons f fs ihf =>
        rw [chainOk, Bool.and_eq_false_iff]
        rcases List.mem_cons.mp he2 with hef | hef
        · left
          subst hef
          simp [hk2]
        · have hlef : entryLe e f = true := (List.pairwise_cons.mp hle).1 f (by simp)
          have hlfe2 : entryLe f e2 = true :=
            (List.pairwise_cons.mp (List.pairwise_cons.mp hle).2).1 e2 hef
          have hfk : f.key = e.key := le_antisymm
            (le_trans ((entryLe_iff _ _).mp hlfe2) hkey)
            ((entryLe_iff _ _).mp hlef)
          left
          simp [hfk]
    · right
      exact ih (List.pairwise_cons.mp hle).2 hrest (some e.key)

/-- Reading a window that lies inside the left part of an append. -/
theorem readAt_append_left (a b : List Nat) (off len : Nat)
    (h : off + len ≤ a.length) :
    readAt (a ++ b) off len = some ((a.drop off).take len) := by
  unfold readAt
  rw [if_pos (by simp; omega)]
  rw [List.drop_append_of_le_length (by omega),
    List.take_append_of_le_length (by simp; omega)]

/-- Entries produced by `entriesExact` locate their values inside the
concatenated value bytes. -/
theorem entriesExact_mem_spec : ∀ (keys : List (List Nat))
    (wv : List Nat → List Nat × Nat) (pos : Nat) (e : IndexEntry),
    e ∈ entriesExact keys wv pos →
    e.size = (wv e.key).1.length ∧ e.unknownFields = [] ∧
    pos ≤ e.offset ∧
    e.offset - pos + e.size ≤ ((keys.map fun k => (wv k).1).flatten).length ∧
    (((keys.map fun k => (wv k).1).flatten).drop (e.offset - pos)).take e.size =
      (wv e.key).1
  | [], _, _, e => by intro h; exact absurd h (List.not_mem_nil e)
  | k :: ks, wv, pos, e => by
    intro hmem
    rw [entriesExact] at hmem
    simp only [List.map_cons, List.flatten_cons, List.length_append]
    rcases List.mem_cons.mp hmem with he | he
    · subst he
      simp only [Nat.sub_self, List.drop_zero]
      refine ⟨trivial, trivial, le_refl _, by omega, ?_⟩
      rw [List.take_append_of_le_length (le_refl _), List.take_of_length_le (le_refl _)]
    · obtain ⟨h1, h2, h3, h4, h5⟩ := entriesExact_mem_spec ks wv (pos + (wv k).1.length) e he
      refine ⟨h1, h2, by omega, by omega, ?_⟩
      have hsplit : e.offset - pos = (wv k).1.length + (e.offset - (pos + (wv k).1.length)) := by
        omega
      rw [hsplit, List.drop_append, h5]

/-- `Write` on distinct non-empty keys with an honest value callback:
the output is exactly the modelled archive of the input-order values and
the sorted index. -/
theorem Write_ok (keys : List (List Nat)) (wv : List Nat → List Nat × Nat)
    (hne : ∀ k ∈ keys, k ≠ [])
    (hnd : keys.Nodup)
    (hh : ∀ k ∈ keys, (wv k).2 = (wv k).1.length)
    (hfs : (archiveOf ((keys.map fun k => (wv k).1).flatten)
      ((entriesExact keys wv 0).mergeSort entryLe)).length ≤ maxInt64) :
    Write keys wv = .ok (archiveOf ((keys.map fun k => (wv k).1).flatten)
      ((entriesExact keys wv 0).mergeSort entryLe)) := by
  have hlenA : (archiveOf ((keys.map fun k => (wv k).1).flatten)
      ((entriesExact keys wv 0).mergeSort entryLe)).length =
      ((keys.map fun k => (wv k).1).flatten).length +
      (indexRegion ((entriesExact keys wv 0).mergeSort entryLe)).length +
      8 * (((entriesExact keys wv 0).mergeSort entryLe).length + 1) := by
    simp only [archiveOf, List.length_append, length_posTable, posList_length]
    omega
  have hnkeys : (entriesExact keys wv 0).map IndexEntry.key = keys :=
    keys_entriesExact keys wv 0
  have hlen0 : (entriesExact keys wv 0).length = keys.length := by
    have := congrArg List.length hnkeys
    simpa using this
  have hlenS : ((entriesExact keys wv 0).mergeSort entryLe).length =
      (entriesExact keys wv 0).length := List.length_mergeSort ..
  have hchain : chainOk none ((entriesExact keys wv 0).mergeSort entryLe) = true := by
    refine chainOk_of_nodup_keys _ none (by simp) ?_
    refine (((List.mergeSort_perm (entriesExact keys wv 0) entryLe).map
      IndexEntry.key).nodup_iff).mpr ?_
    rw [hnkeys]
    exact hnd
  have hmax : maxInt64 = 2 ^ 63 - 1 := rfl
  rw [pow63Simple] at hmax
  unfold Write WriteIterator
  rw [WriteIteratorLoop_exact keys wv 0 hne hh (by rw [pow64Lit]; omega)]
  simp only [Nat.zero_add]
  rw [WriteIndex_ok (entriesExact keys wv 0)
    ((keys.map fun k => (wv k).1).flatten).length hchain (by rw [pow64Lit]; omega)]
  simp only [archiveOf, hlenS]

/-- Entry fields survive the stable sort: membership is preserved. -/
theorem mem_mergeSort_entry (index : List IndexEntry) (e : IndexEntry) :
    e ∈ index.mergeSort entryLe ↔ e ∈ index :=
  List.mem_mergeSort ..

/-- `Get` finds the stored association for a present key: the search
lands on the entry and the value window is read back. -/
theorem Get_found (file : List Nat) (r : ReaderState) (es : List IndexEntry)
    (k : List Nat) (V : IndexEntry → List Nat)
    (Hcount : r.indexEntryCount = es.length) (Hmax : es.length ≤ maxInt64)
    (Hread : ∀ x (hx : x < es.length), ReadIndexEntry file r x = .ok es[x])
    (Hsorted : List.Pairwise (fun a b => a.key < b.key) es)
    (Hipos : r.indexEntryIndexesPos ≤ maxInt64)
    (Hb : ∀ e ∈ es, e.offset + e.size ≤ r.indexEntryIndexesPos ∧ e.size ≤ maxValueSize)
    (Hval : ∀ e ∈ es, readAt file e.offset e.size = some (V e))
    (hk : k ∈ es.map IndexEntry.key) :
    ∃ e, e ∈ es ∧ e.key = k ∧ Get file r k = .ok (some (V e)) := by
  obtain ⟨e0, he0, hke⟩ := List.mem_map.mp hk
  rcases SearchIndexEntryWithKey_spec file r k es Hcount Hmax Hread Hsorted with
    ⟨x, hx, hkx, heq⟩ | ⟨m, heq, hm, hlo, hhi⟩
  · have hmem : es[x] ∈ es := List.getElem_mem hx
    obtain ⟨hb1, hb2⟩ := Hb es[x] hmem
    have hmvs : maxValueSize = 1000000000 := rfl
    have hm64 : maxInt64 = 2 ^ 63 - 1 := rfl
    rw [pow63Simple] at hm64
    refine ⟨es[x], hmem, hkx, ?_⟩
    unfold Get GetValuePosition
    rw [heq]
    simp only
    unfold GetValuePositionWithEntry
    rw [if_neg (by omega), if_neg (by omega), if_neg (by omega), if_neg (by omega),
      if_neg (by omega), if_neg (by omega)]
    simp only
    rw [if_neg (by omega)]
    rw [show ((es[x].offset : Int)).toNat = es[x].offset from by omega,
      show ((es[x].size : Int)).toNat = es[x].size from by omega]
    rw [Hval es[x] hmem]
  · obtain ⟨y, hy, hey⟩ := List.getElem_of_mem he0
    rcases lt_or_le y m with hlt | hge
    · have hcon := hlo y hy hlt
      rw [hey, hke] at hcon
      exact absurd hcon (lt_irrefl k)
    · have hcon := hhi y hy hge
      rw [hey, hke] at hcon
      exact absurd hcon (lt_irrefl k)

/-- `Get` reports "not found" in band for an absent key. -/
theorem Get_notfound (file : List Nat) (r : ReaderState) (es : List IndexEntry)
    (k : List Nat)
    (Hcount : r.indexEntryCount = es.length) (Hmax : es.length ≤ maxInt64)
    (Hread : ∀ x (hx : x < es.length), ReadIndexEntry file r x = .ok es[x])
    (Hsorted : List.Pairwise (fun a b => a.key < b.key) es)
    (hk : k ∉ es.map IndexEntry.key) :
    Get file r k = .ok none := by
  rcases SearchIndexEntryWithKey_spec file r k es Hcount Hmax Hread Hsorted with
    ⟨x, hx, hkx, heq⟩ | ⟨m, heq, hm, hlo, hhi⟩
  · exact absurd (List.mem_map.mpr ⟨es[x], List.getElem_mem hx, hkx⟩) hk
  · unfold Get GetValuePosition
    rw [heq]
    simp only
    rw [if_pos (by omega)]

/-- C1: Round-trip.  For distinct non-empty keys with an honest value
callback (within the modelled size bounds: per-value `maxValueSize`,
per-entry `maxIndexEntrySize`, archive within `MaxInt64`), writing with
the batch `Write` and opening the result with `BuildReader` yields a
reader for which `Get` returns the stored value for every input key and
in-band "not found" for every other key. -/
theorem claim_C1 (keys : List (List Nat)) (wv : List Nat → List Nat × Nat)
    (hne : ∀ k ∈ keys, k ≠ [])
    (hnd : keys.Nodup)
    (hh : ∀ k ∈ keys, (wv k).2 = (wv k).1.length)
    (hvs : ∀ k ∈ keys, (wv k).1.length ≤ maxValueSize)
    (hsz : ∀ e ∈ entriesExact keys wv 0, e.sizeVT ≤ maxIndexEntrySize)
    (hfs : (archiveOf ((keys.map fun k => (wv k).1).flatten)
      ((entriesExact keys wv 0).mergeSort entryLe)).length ≤ maxInt64) :
    ∃ file r, Write keys wv = .ok file ∧
      BuildReader file file.length = .ok r ∧
      (∀ k, k ∈ keys → Get file r k = .ok (some (wv k).1)) ∧
      (∀ k, k ∉ keys → Get file r k = .ok none) := by
  have hw : Write keys wv = .ok (archiveOf ((keys.map fun k => (wv k).1).flatten)
      ((entriesExact keys wv 0).mergeSort entryLe)) := Write_ok keys wv hne hnd hh hfs
  by_cases h0 : keys = []
  · subst h0
    refine ⟨archiveOf [] [], ⟨0, 0, 0⟩, ?_, ?_, ?_, ?_⟩
    · have he : entriesExact [] wv 0 = [] := rfl
      rw [he, List.mergeSort_nil] at hw
      simpa using hw
    · rfl
    · intro k hk
      exact absurd hk (List.not_mem_nil k)
    · intro k hk
      exact Get_notfound (archiveOf [] []) ⟨0, 0, 0⟩ [] k rfl (by simp [maxInt64])
        (fun x hx => absurd hx (by simp)) (by simp) (by simpa using hk)
  · -- non-empty key list
    have hkeys0 : (entriesExact keys wv 0).map IndexEntry.key = keys :=
      keys_entriesExact keys wv 0
    have hlen0 : (entriesExact keys wv 0).length = keys.length := by
      have := congrArg List.length hkeys0
      simpa using this
    have hlenS : ((entriesExact keys wv 0).mergeSort entryLe).length =
        (entriesExact keys wv 0).length := List.length_mergeSort ..
    have hNS : 1 ≤ ((entriesExact keys wv 0).mergeSort entryLe).length := by
      rw [hlenS, hlen0]
      exact List.length_pos_iff_ne_nil.mpr h0
    have hmemS : ∀ e, e ∈ (entriesExact keys wv 0).mergeSort entryLe ↔
        e ∈ entriesExact keys wv 0 := fun e => List.mem_mergeSort ..
    have hlenA : (archiveOf ((keys.map fun k => (wv k).1).flatten)
        ((entriesExact keys wv 0).mergeSort entryLe)).length =
        ((keys.map fun k => (wv k).1).flatten).length +
        (indexRegion ((entriesExact keys wv 0).mergeSort entryLe)).length +
        8 * (((entriesExact keys wv 0).mergeSort entryLe).length + 1) := by
      simp only [archiveOf, List.length_append, length_posTable, posList_length]
      omega
    have hspecS : ∀ e ∈ (entriesExact keys wv 0).mergeSort entryLe,
        e.size = (wv e.key).1.length ∧ e.unknownFields = [] ∧
        e.offset + e.size ≤ ((keys.map fun k => (wv k).1).flatten).length ∧
        (((keys.map fun k => (wv k).1).flatten).drop e.offset).take e.size =
          (wv e.key).1 := by
      intro e he
      obtain ⟨h1, h2, h3, h4, h5⟩ :=
        entriesExact_mem_spec keys wv 0 e ((hmemS e).mp he)
      rw [Nat.sub_zero] at h4 h5
      exact ⟨h1, h2, h4, h5⟩
    have hkeymem : ∀ e ∈ (entriesExact keys wv 0).mergeSort entryLe, e.key ∈ keys := by
      intro e he
      rw [← hkeys0]
      exact List.mem_map_of_mem IndexEntry.key ((hmemS e).mp he)
    have hm64 : maxInt64 = 2 ^ 63 - 1 := rfl
    rw [pow63Simple] at hm64
    have hszS : ∀ e ∈ (entriesExact keys wv 0).mergeSort entryLe,
        e.sizeVT ≤ maxIndexEntrySize := fun e he => hsz e ((hmemS e).mp he)
    have hoffS : ∀ e ∈ (entriesExact keys wv 0).mergeSort entryLe,
        e.offset ≤ ((keys.map fun k => (wv k).1).flatten).length := by
      intro e he
      have := (hspecS e he).2.2.1
      omega
    have hwfS : ∀ e ∈ (entriesExact keys wv 0).mergeSort entryLe,
        e.unknownFields = [] ∧ e.offset < 2 ^ 64 ∧ e.size < 2 ^ 64 := by
      intro e he
      obtain ⟨h1, h2, h3, h5⟩ := hspecS e he
      rw [pow64Lit]
      exact ⟨h2, by omega, by omega⟩
    have Hread := ReadIndexEntry_archive ((keys.map fun k => (wv k).1).flatten)
      ((entriesExact keys wv 0).mergeSort entryLe) hszS hoffS hwfS hfs
    have Hsorted : List.Pairwise (fun a b => a.key < b.key)
        ((entriesExact keys wv 0).mergeSort entryLe) :=
      mergeSort_pairwise_lt (entriesExact keys wv 0) (by rw [hkeys0]; exact hnd)
    have hbuild := BuildReader_archive ((keys.map fun k => (wv k).1).flatten)
      ((entriesExact keys wv 0).mergeSort entryLe) hszS hNS hfs
    have Hipos : ((keys.map fun k => (wv k).1).flatten).length +
        (indexRegion ((entriesExact keys wv 0).mergeSort entryLe)).length ≤
        maxInt64 := by omega
    have Hb : ∀ e ∈ (entriesExact keys wv 0).mergeSort entryLe,
        e.offset + e.size ≤ ((keys.map fun k => (wv k).1).flatten).length +
          (indexRegion ((entriesExact keys wv 0).mergeSort entryLe)).length ∧
        e.size ≤ maxValueSize := by
      intro e he
      refine ⟨by have := (hspecS e he).2.2.1; omega, ?_⟩
      rw [(hspecS e he).1]
      exact hvs e.key (hkeymem e he)
    have Hval : ∀ e ∈ (entriesExact keys wv 0).mergeSort entryLe,
        readAt (archiveOf ((keys.map fun k => (wv k).1).flatten)
          ((entriesExact keys wv 0).mergeSort entryLe)) e.offset e.size =
        some ((wv e.key).1) := by
      intro e he
      rw [archiveOf, readAt_append_left _ _ _ _ (hspecS e he).2.2.1,
        (hspecS e he).2.2.2]
    refine ⟨archiveOf ((keys.map fun k => (wv k).1).flatten)
        ((entriesExact keys wv 0).mergeSort entryLe),
      ⟨((entriesExact keys wv 0).mergeSort entryLe).length,
        ((keys.map fun k => (wv k).1).flatten).length +
          (indexRegion ((entriesExact keys wv 0).mergeSort entryLe)).length,
        ((keys.map fun k => (wv k).1).flatten).length⟩,
      hw, hbuild, ?_, ?_⟩
    · intro k hk
      obtain ⟨e, he, hek, hget⟩ := Get_found
        (archiveOf ((keys.map fun k => (wv k).1).flatten)
          ((entriesExact keys wv 0).mergeSort entryLe))
        ⟨((entriesExact keys wv 0).mergeSort entryLe).length,
          ((keys.map fun k => (wv k).1).flatten).length +
            (indexRegion ((entriesExact keys wv 0).mergeSort entryLe)).length,
          ((keys.map fun k => (wv k).1).flatten).length⟩
        ((entriesExact keys wv 0).mergeSort entryLe) k
        (fun e => (wv e.key).1) rfl (by omega) Hread Hsorted Hipos Hb Hval
        (by
          rw [← hkeys0] at hk
          obtain ⟨e, he, hek⟩ := List.mem_map.mp hk
          exact List.mem_map.mpr ⟨e, (hmemS e).mpr he, hek⟩)
      rw [hget, hek]
    · intro k hk
      refine Get_notfound _ _ ((entriesExact keys wv 0).mergeSort entryLe) k rfl
        (by omega) Hread Hsorted ?_
      intro hc
      obtain ⟨e, he, hek⟩ := List.mem_map.mp hc
      exact hk (hek ▸ hkeymem e he)

/-- Witness for C1 at a concrete input: two keys stored and looked up,
plus an absent key. -/
theorem claim_C1_witness :
    ∃ file r, Write [[98], [97]] (fun k => (k, k.length)) = .ok file ∧
      BuildReader file file.length = .ok r ∧
      (∀ k, k ∈ [[98], [97]] → Get file r k = .ok (some k)) ∧
      (∀ k, k ∉ [[98], [97]] → Get file r k = .ok none) := by
  obtain ⟨file, r, h1, h2, h3, h4⟩ := claim_C1 [[98], [97]] (fun k => (k, k.length))
    (by decide) (by decide) (by decide) (by decide)
    (by simp [entriesExact, IndexEntry.sizeVT, sizeOfVarint_small, maxIndexEntrySize])
    (by norm_num [archiveOf, entriesExact, List.mergeSort, entryLe, bytesCompare,
      indexRegion, framedEntry, IndexEntry.marshalVT, appendVarint_small, posList,
      posTable, putUint64LE, maxInt64])
  refine ⟨file, r, h1, h2, ?_, h4⟩
  intro k hk
  rw [h3 k hk]

/-- C7: Reader bootstrap rejection.  `BuildReader` errors for every
`0 < fileSize < 8`; `fileSize = 0` yields the empty reader with count 0;
otherwise (within `MaxInt64`) the count `N` read from the final 8 bytes
is rejected whenever `N * 8 > fileSize - 8`, covering the 64-bit
overflow case through the `MaxUint64 / 8` guard. -/
theorem claim_C7 (file : List Nat) (fs : Nat) :
    (0 < fs → fs < 8 → BuildReader file fs = .error .trailerTooSmall) ∧
    (fs = 0 → BuildReader file fs = .ok ⟨0, 0, 0⟩) ∧
    (∀ b, 8 ≤ fs → fs ≤ maxInt64 → readAt file (fs - 8) 8 = some b →
      getUint64LE b * 8 > fs - 8 → BuildReader file fs = .error .countTooLarge) := by
  refine ⟨?_, ?_, ?_⟩
  · intro h0 h8
    unfold BuildReader
    rw [if_neg (by omega), if_pos h8]
  · intro h0
    subst h0
    rfl
  · intro b h8 hm hread hcount
    unfold BuildReader
    rw [if_neg (by omega), if_neg (by omega), if_neg (by omega : ¬fs > maxInt64)]
    simp only
    rw [hread]
    simp only
    by_cases hbig : getUint64LE b > (2 ^ 64 - 1) / 8
    · rw [if_pos hbig]
    · rw [if_neg hbig, if_pos (by omega : getUint64LE b * 8 > fs - 8)]

/-- Witness for C7: a 16-byte file whose trailer declares 2^64 - 1
entries is rejected. -/
theorem claim_C7_witness :
    BuildReader (List.replicate 8 0 ++ List.replicate 8 255) 16 =
      .error .countTooLarge :=
  (claim_C7 (List.replicate 8 0 ++ List.replicate 8 255) 16).2.2
    (List.replicate 8 255) (by decide) (by decide) (by decide) (by decide)

/-- C5: Exact-search correctness.  On a reader whose `count` entries read
back as the strictly key-sorted list `es`, `SearchIndexEntryWithKey k`
returns the entry carrying `k` at its index exactly when `k` is stored;
otherwise it returns `none` with the insertion index `m` satisfying
`keys[m-1] < k < keys[m]` (sentinels at the ends). -/
theorem claim_C5 (file : List Nat) (r : ReaderState) (k : List Nat)
    (es : List IndexEntry)
    (Hcount : r.indexEntryCount = es.length) (Hmax : es.length ≤ maxInt64)
    (Hread : ∀ x (hx : x < es.length), ReadIndexEntry file r x = .ok es[x])
    (Hsorted : List.Pairwise (fun a b => a.key < b.key) es) :
    (k ∈ es.map IndexEntry.key →
      ∃ x, ∃ hx : x < es.length, (es[x]).key = k ∧
        SearchIndexEntryWithKey file r k = .ok (some es[x], (x : Int))) ∧
    (k ∉ es.map IndexEntry.key →
      ∃ m : Nat, SearchIndexEntryWithKey file r k = .ok (none, (m : Int)) ∧
        m ≤ es.length ∧
        (∀ x (hx : x < es.length), x < m → (es[x]).key < k) ∧
        (∀ x (hx : x < es.length), m ≤ x → k < (es[x]).key)) := by
  rcases SearchIndexEntryWithKey_spec file r k es Hcount Hmax Hread Hsorted with
    ⟨x, hx, hkx, heq⟩ | ⟨m, heq, hm, hlo, hhi⟩
  · constructor
    · intro _
      exact ⟨x, hx, hkx, heq⟩
    · intro hk
      exact absurd (List.mem_map.mpr ⟨es[x], List.getElem_mem hx, hkx⟩) hk
  · constructor
    · intro hk
      obtain ⟨e0, he0, hke⟩ := List.mem_map.mp hk
      obtain ⟨y, hy, hey⟩ := List.getElem_of_mem he0
      rcases lt_or_le y m with hlt | hge
      · have hcon := hlo y hy hlt
        rw [hey, hke] at hcon
        exact absurd hcon (lt_irrefl k)
      · have hcon := hhi y hy hge
        rw [hey, hke] at hcon
        exact absurd hcon (lt_irrefl k)
    · intro _
      exact ⟨m, heq, hm, hlo, hhi⟩

/-- Witness for C5: a present key is found at its index in a two-entry
archive produced by the writer layout. -/
theorem claim_C5_witness :
    ∃ x, ∃ hx : x < ([⟨[97], 1, 1, []⟩, ⟨[98], 0, 1, []⟩] : List IndexEntry).length,
      (([⟨[97], 1, 1, []⟩, ⟨[98], 0, 1, []⟩] : List IndexEntry)[x]).key = [97] ∧
      SearchIndexEntryWithKey
        (archiveOf [98, 97] [⟨[97], 1, 1, []⟩, ⟨[98], 0, 1, []⟩])
        ⟨2, 2 + (indexRegion [⟨[97], 1, 1, []⟩, ⟨[98], 0, 1, []⟩]).length, 2⟩ [97] =
        .ok (some ([⟨[97], 1, 1, []⟩, ⟨[98], 0, 1, []⟩] : List IndexEntry)[x],
          (x : Int)) :=
  (claim_C5 (archiveOf [98, 97] [⟨[97], 1, 1, []⟩, ⟨[98], 0, 1, []⟩])
    ⟨2, 2 + (indexRegion [⟨[97], 1, 1, []⟩, ⟨[98], 0, 1, []⟩]).length, 2⟩ [97]
    [⟨[97], 1, 1, []⟩, ⟨[98], 0, 1, []⟩] rfl (by decide)
    (ReadIndexEntry_archive [98, 97] [⟨[97], 1, 1, []⟩, ⟨[98], 0, 1, []⟩]
      (by simp [IndexEntry.sizeVT, sizeOfVarint_small, maxIndexEntrySize])
      (by decide) (by decide)
      (by norm_num [archiveOf, indexRegion, framedEntry, IndexEntry.marshalVT,
        appendVarint_small, posList, posTable, putUint64LE, maxInt64]))
    (by decide)).1 (by decide)

/-- C6: Prefix-search bounds.  On a reader reading back the strictly
key-sorted entries `es`: a non-empty prefix in first mode returns the
smallest matching index and in last mode the largest, both falling back
to `(none, insertion bound)` when nothing matches; the empty prefix
returns the first/last entry (`none` on an empty index, `-1` as the last
mode's index); and `ScanPrefixEntries` visits exactly the contiguous run
of matching entries, in ascending index order. -/
theorem claim_C6 (file : List Nat) (r : ReaderState) (pre : List Nat)
    (es : List IndexEntry)
    (Hcount : r.indexEntryCount = es.length) (Hmax : es.length ≤ maxInt64)
    (Hread : ∀ x (hx : x < es.length), ReadIndexEntry file r x = .ok es[x])
    (Hsorted : List.Pairwise (fun a b => a.key < b.key) es) :
    (pre ≠ [] →
      (∃ x, ∃ hx : x < es.length,
        SearchIndexEntryWithPrefix file r pre false = .ok (some es[x], (x : Int)) ∧
        pre <+: (es[x]).key ∧
        (∀ y (hy : y < es.length), pre <+: (es[y]).key → x ≤ y)) ∨
      (∃ m : Nat, SearchIndexEntryWithPrefix file r pre false = .ok (none, (m : Int)) ∧
        m ≤ es.length ∧
        (∀ x (hx : x < es.length), x < m → (es[x]).key < pre) ∧
        (∀ x (hx : x < es.length), m ≤ x → pre < (es[x]).key) ∧
        (∀ x (hx : x < es.length), ¬pre <+: (es[x]).key))) ∧
    (pre ≠ [] →
      (∃ x, ∃ hx : x < es.length,
        SearchIndexEntryWithPrefix file r pre true = .ok (some es[x], (x : Int)) ∧
        pre <+: (es[x]).key ∧
        (∀ y (hy : y < es.length), pre <+: (es[y]).key → y ≤ x)) ∨
      (∃ m : Nat, SearchIndexEntryWithPrefix file r pre true = .ok (none, (m : Int)) ∧
        m ≤ es.length ∧
        (∀ x (hx : x < es.length), x < m → (es[x]).key < pre) ∧
        (∀ x (hx : x < es.length), m ≤ x → pre < (es[x]).key) ∧
        (∀ x (hx : x < es.length), ¬pre <+: (es[x]).key))) ∧
    (∀ h : 0 < es.length,
      SearchIndexEntryWithPrefix file r [] false = .ok (some es[0], 0) ∧
      SearchIndexEntryWithPrefix file r [] true =
        .ok (some es[es.length - 1], (es.length : Int) - 1)) ∧
    (es.length = 0 →
      SearchIndexEntryWithPrefix file r [] false = .ok (none, 0) ∧
      SearchIndexEntryWithPrefix file r [] true = .ok (none, -1)) ∧
    (pre ≠ [] →
      ∃ lo len, lo + len ≤ es.length ∧
        ScanPrefixEntries file r pre = .ok (pairsFrom es lo len) ∧
        (∀ x (hx : x < es.length), pre <+: (es[x]).key ↔ lo ≤ x ∧ x < lo + len)) := by
  refine ⟨?_, ?_, ?_, ?_, ?_⟩
  · intro hpre
    exact SearchIndexEntryWithPrefix_first_spec file r pre es Hcount Hmax hpre
      Hread Hsorted
  · intro hpre
    exact SearchIndexEntryWithPrefix_last_spec file r pre es Hcount Hmax hpre
      Hread Hsorted
  · intro h
    constructor
    · rw [SearchIndexEntryWithPrefix_empty_first file r es Hcount Hmax Hread,
        dif_pos h]
    · rw [SearchIndexEntryWithPrefix_empty_last file r es Hcount Hmax Hread,
        dif_pos h]
  · intro h
    constructor
    · rw [SearchIndexEntryWithPrefix_empty_first file r es Hcount Hmax Hread,
        dif_neg (by omega)]
    · rw [SearchIndexEntryWithPrefix_empty_last file r es Hcount Hmax Hread,
        dif_neg (by omega)]
  · intro hpre
    exact ScanPrefixEntries_spec file r pre es Hcount Hmax hpre Hread Hsorted

/-- Witness for C6: scanning prefix `[97]` over the two-entry archive
visits exactly its contiguous matching run. -/
theorem claim_C6_witness :
    ∃ lo len, lo + len ≤ ([⟨[97], 1, 1, []⟩, ⟨[98], 0, 1, []⟩] : List IndexEntry).length ∧
      ScanPrefixEntries (archiveOf [98, 97] [⟨[97], 1, 1, []⟩, ⟨[98], 0, 1, []⟩])
        ⟨2, 2 + (indexRegion [⟨[97], 1, 1, []⟩, ⟨[98], 0, 1, []⟩]).length, 2⟩ [97] =
        .ok (pairsFrom [⟨[97], 1, 1, []⟩, ⟨[98], 0, 1, []⟩] lo len) ∧
      (∀ x (hx : x < ([⟨[97], 1, 1, []⟩, ⟨[98], 0, 1, []⟩] : List IndexEntry).length),
        [97] <+: (([⟨[97], 1, 1, []⟩, ⟨[98], 0, 1, []⟩] : List IndexEntry)[x]).key ↔
          lo ≤ x ∧ x < lo + len) :=
  (claim_C6 (archiveOf [98, 97] [⟨[97], 1, 1, []⟩, ⟨[98], 0, 1, []⟩])
    ⟨2, 2 + (indexRegion [⟨[97], 1, 1, []⟩, ⟨[98], 0, 1, []⟩]).length, 2⟩ [97]
    [⟨[97], 1, 1, []⟩, ⟨[98], 0, 1, []⟩] rfl (by decide)
    (ReadIndexEntry_archive [98, 97] [⟨[97], 1, 1, []⟩, ⟨[98], 0, 1, []⟩]
      (by simp [IndexEntry.sizeVT, sizeOfVarint_small, maxIndexEntrySize])
      (by decide) (by decide)
      (by norm_num [archiveOf, indexRegion, framedEntry, IndexEntry.marshalVT,
        appendVarint_small, posList, posTable, putUint64LE, maxInt64]))
    (by decide)).2.2.2.2 (by decide)

theorem takeWhile_ne_append (keys rest : List (List Nat))
    (hne : ∀ k ∈ keys, k ≠ []) :
    ((keys ++ [] :: rest).takeWhile fun k => decide (k ≠ [])) = keys := by
  induction keys with
  | nil => simp
  | cons k ks ih =>
    rw [List.cons_append, List.takeWhile_cons]
    have hk : (decide (k ≠ [])) = true := by simp [hne k (by simp)]
    rw [hk]
    simp only [if_true]
    rw [ih fun x hx => hne x (by simp [hx])]

theorem takeWhile_ne_self (keys : List (List Nat)) (hne : ∀ k ∈ keys, k ≠ []) :
    (keys.takeWhile fun k => decide (k ≠ [])) = keys := by
  induction keys with
  | nil => simp
  | cons k ks ih =>
    rw [List.takeWhile_cons]
    have hk : (decide (k ≠ [])) = true := by simp [hne k (by simp)]
    rw [hk]
    simp only [if_true]
    rw [ih fun x hx => hne x (by simp [hx])]

/-- C10: A zero-length key ends the batch writers' input.  `Write` is the
function of the keys before the first empty key — everything at and past
the first empty key is ignored without an error being introduced — and
inserting an empty key after non-empty keys truncates there. -/
theorem claim_C10 (keys rest : List (List Nat)) (wv : List Nat → List Nat × Nat)
    (hne : ∀ k ∈ keys, k ≠ []) :
    Write (keys ++ [] :: rest) wv = Write keys wv ∧
    Write keys wv = Write (keys.takeWhile fun k => decide (k ≠ [])) wv := by
  constructor
  · unfold Write WriteIterator
    rw [WriteIteratorLoop_takeWhile (keys ++ [] :: rest) wv 0,
      takeWhile_ne_append keys rest hne, WriteIteratorLoop_takeWhile keys wv 0,
      takeWhile_ne_self keys hne]
  · unfold Write WriteIterator
    rw [WriteIteratorLoop_takeWhile keys wv 0]

/-- Witness for C10: an empty key cuts off a following key. -/
theorem claim_C10_witness :
    Write [[97], [], [98]] (fun k => (k, k.length)) =
      Write [[97]] (fun k => (k, k.length)) :=
  (claim_C10 [[97]] [[98]] (fun k => (k, k.length)) (by decide)).1

/-- C2 (amended): Positions-table semantics.  Slot `i` of the positions
table holds the absolute position just after entry `i`'s marshalled
bytes — which is where the framing varint STARTS, not the position after
it — and the reader decodes that varint forward from the stored position
to recover the entry. -/
theorem claim_C2 (values : List Nat) (es : List IndexEntry)
    (hsz : ∀ e ∈ es, e.sizeVT ≤ maxIndexEntrySize)
    (hoff : ∀ e ∈ es, e.offset ≤ values.length)
    (hwf : ∀ e ∈ es, e.unknownFields = [] ∧ e.offset < 2 ^ 64 ∧ e.size < 2 ^ 64)
    (hfs : (archiveOf values es).length ≤ maxInt64)
    (i : Nat) (hi : i < es.length) :
    (posList es values.length).get ⟨i, by rw [posList_length]; omega⟩ =
      values.length + regionPre es i + (es[i]).marshalVT.length ∧
    (∃ rest, (archiveOf values es).drop
        (values.length + regionPre es i + (es[i]).marshalVT.length) =
      appendVarint ((es[i]).marshalVT.length) ++ rest) ∧
    ReadIndexEntry (archiveOf values es)
      ⟨es.length, values.length + (indexRegion es).length, values.length⟩ i =
      .ok es[i] := by
  refine ⟨posList_get es values.length i hi, ?_,
    ReadIndexEntry_archive values es hsz hoff hwf hfs i hi⟩
  obtain ⟨post, hregion⟩ := indexRegion_slice es i hi
  refine ⟨post ++ posTable (posList es values.length) es.length, ?_⟩
  have hX : archiveOf values es =
      ((values ++ indexRegion (es.take i)) ++ (es[i]).marshalVT) ++
        (appendVarint ((es[i]).marshalVT.length) ++
          (post ++ posTable (posList es values.length) es.length)) := by
    rw [archiveOf, hregion, framedEntry]
    simp [List.append_assoc]
  have hXlen : ((values ++ indexRegion (es.take i)) ++ (es[i]).marshalVT).length =
      values.length + regionPre es i + (es[i]).marshalVT.length := by
    simp [regionPre]
    omega
  rw [hX, ← hXlen, List.drop_left]

/-- Counterexample to C2 as stated: in the archive written for keys
`[98]`, `[97]`, slot 0 stores the position where entry 0's framing
varint starts (2 + 7 = 9), not the position immediately following that
varint (2 + 8 = 10). -/
theorem claim_C2_counterexample :
    ∃ out, Write [[98], [97]] (fun k => (k, k.length)) = .ok out ∧
      getUint64LE (out.drop 16) =
        2 + (IndexEntry.marshalVT ⟨[97], 1, 1, []⟩).length ∧
      getUint64LE (out.drop 16) ≠ 2 + (framedEntry ⟨[97], 1, 1, []⟩).length := by
  have hw := Write_ok [[98], [97]] (fun k => (k, k.length)) (by decide) (by decide)
    (by decide)
    (by norm_num [archiveOf, entriesExact, List.mergeSort, entryLe, bytesCompare,
      indexRegion, framedEntry, IndexEntry.marshalVT, appendVarint_small, posList,
      posTable, putUint64LE, maxInt64])
  refine ⟨_, hw, ?_, ?_⟩ <;>
    norm_num [archiveOf, entriesExact, List.mergeSort, entryLe, bytesCompare,
      indexRegion, framedEntry, IndexEntry.marshalVT, appendVarint_small, posList,
      posTable, putUint64LE, getUint64LE]

/-- Witness for C2 (amended) at the two-entry archive. -/
theorem claim_C2_witness :
    (posList [⟨[97], 1, 1, []⟩, ⟨[98], 0, 1, []⟩] ([98, 97] : List Nat).length).get
        ⟨0, by rw [posList_length]; decide⟩ =
      ([98, 97] : List Nat).length +
        regionPre [⟨[97], 1, 1, []⟩, ⟨[98], 0, 1, []⟩] 0 +
        (IndexEntry.marshalVT ⟨[97], 1, 1, []⟩).length ∧
    (∃ rest, (archiveOf [98, 97] [⟨[97], 1, 1, []⟩, ⟨[98], 0, 1, []⟩]).drop
        (([98, 97] : List Nat).length +
          regionPre [⟨[97], 1, 1, []⟩, ⟨[98], 0, 1, []⟩] 0 +
          (IndexEntry.marshalVT ⟨[97], 1, 1, []⟩).length) =
      appendVarint ((IndexEntry.marshalVT ⟨[97], 1, 1, []⟩).length) ++ rest) ∧
    ReadIndexEntry (archiveOf [98, 97] [⟨[97], 1, 1, []⟩, ⟨[98], 0, 1, []⟩])
      ⟨2, ([98, 97] : List Nat).length +
        (indexRegion [⟨[97], 1, 1, []⟩, ⟨[98], 0, 1, []⟩]).length,
        ([98, 97] : List Nat).length⟩ 0 =
      .ok ⟨[97], 1, 1, []⟩ :=
  claim_C2 [98, 97] [⟨[97], 1, 1, []⟩, ⟨[98], 0, 1, []⟩]
    (by simp [IndexEntry.sizeVT, sizeOfVarint_small, maxIndexEntrySize])
    (by decide) (by decide)
    (by norm_num [archiveOf, indexRegion, framedEntry, IndexEntry.marshalVT,
      appendVarint_small, posList, posTable, putUint64LE, maxInt64])
    0 (by decide)

/-- C8 (amended): Batch writer ordering.  The value callback runs once
per key in INPUT order (not sorted order): the value stream is the
concatenation of the values in input order, each entry records the
output position before its own callback and the count the callback
returned, and only the index entries are then stable-sorted by key. -/
theorem claim_C8 (keys : List (List Nat)) (wv : List Nat → List Nat × Nat)
    (hne : ∀ k ∈ keys, k ≠ [])
    (hnd : keys.Nodup)
    (hh : ∀ k ∈ keys, (wv k).2 = (wv k).1.length)
    (hfs : (archiveOf ((keys.map fun k => (wv k).1).flatten)
      ((entriesExact keys wv 0).mergeSort entryLe)).length ≤ maxInt64) :
    WriteIteratorLoop keys wv 0 = ((keys.map fun k => (wv k).1).flatten,
      entriesExact keys wv 0,
      0 + ((keys.map fun k => (wv k).1).flatten).length) ∧
    Write keys wv = .ok (archiveOf ((keys.map fun k => (wv k).1).flatten)
      ((entriesExact keys wv 0).mergeSort entryLe)) := by
  have hm64 : maxInt64 = 2 ^ 63 - 1 := rfl
  rw [pow63Simple] at hm64
  have hlenA : (archiveOf ((keys.map fun k => (wv k).1).flatten)
      ((entriesExact keys wv 0).mergeSort entryLe)).length =
      ((keys.map fun k => (wv k).1).flatten).length +
      (indexRegion ((entriesExact keys wv 0).mergeSort entryLe)).length +
      8 * (((entriesExact keys wv 0).mergeSort entryLe).length + 1) := by
    simp only [archiveOf, List.length_append, length_posTable, posList_length]
    omega
  exact ⟨WriteIteratorLoop_exact keys wv 0 hne hh (by rw [pow64Lit]; omega),
    Write_ok keys wv hne hnd hh hfs⟩

/-- Counterexample to C8 as stated: writing keys `[98]`, `[97]` leaves
the values in INPUT order `[98, 97]` at the head of the output, not in
sorted-key order `[97, 98]`. -/
theorem claim_C8_counterexample :
    ∃ out, Write [[98], [97]] (fun k => (k, k.length)) = .ok out ∧
      out.take 2 = [98, 97] ∧ out.take 2 ≠ [97, 98] := by
  have hw := Write_ok [[98], [97]] (fun k => (k, k.length)) (by decide) (by decide)
    (by decide)
    (by norm_num [archiveOf, entriesExact, List.mergeSort, entryLe, bytesCompare,
      indexRegion, framedEntry, IndexEntry.marshalVT, appendVarint_small, posList,
      posTable, putUint64LE, maxInt64])
  refine ⟨_, hw, ?_, ?_⟩ <;> rw [archiveOf] <;> decide

/-- Witness for C8 (amended) at the two-key input. -/
theorem claim_C8_witness :
    WriteIteratorLoop [[98], [97]] (fun k => (k, k.length)) 0 =
      (([[98], [97]].map fun k => ((fun k : List Nat => (k, k.length)) k).1).flatten,
      entriesExact [[98], [97]] (fun k => (k, k.length)) 0,
      0 + (([[98], [97]].map fun k =>
        ((fun k : List Nat => (k, k.length)) k).1).flatten).length) ∧
    Write [[98], [97]] (fun k => (k, k.length)) =
      .ok (archiveOf (([[98], [97]].map fun k =>
          ((fun k : List Nat => (k, k.length)) k).1).flatten)
        ((entriesExact [[98], [97]] (fun k => (k, k.length)) 0).mergeSort entryLe)) :=
  claim_C8 [[98], [97]] (fun k => (k, k.length)) (by decide) (by decide) (by decide)
    (by norm_num [archiveOf, entriesExact, List.mergeSort, entryLe, bytesCompare,
      indexRegion, framedEntry, IndexEntry.marshalVT, appendVarint_small, posList,
      posTable, putUint64LE, maxInt64])

/-- Counterexample to C9 as stated: the input `[[], []]` contains two
equal keys, yet the batch `Write` succeeds — iteration stops at the
first empty key, so the duplicate is never seen. -/
theorem claim_C9_counterexample :
    Write [[], []] (fun k => (k, k.length)) = .ok (List.replicate 8 0) := by
  unfold Write WriteIterator
  have h1 : WriteIteratorLoop [[], []] (fun k : List Nat => (k, k.length)) 0 =
      ([], [], 0) := rfl
  rw [h1]
  simp only
  unfold WriteIndex
  rw [List.mergeSort_nil]
  simp only
  have h2 : WriteIndexEntriesLoop [] none 0 = .ok ([], [], 0) := rfl
  rw [h2]
  simp only
  rw [if_neg (by rw [pow64Lit]; norm_num)]
  rfl

/-- C9 (amended): Duplicate-key rejection holds for duplicates the
writers actually see.  Batch: when the keys are non-empty (so none is
cut off as an end marker) and contain a duplicate, `Write` fails with
the duplicate-key error, found by comparing adjacent keys after the
stable sort.  Progressive: two `WriteValue` calls with the same key
succeed, and the duplicate is reported by `Close`. -/
theorem claim_C9 :
    (∀ (keys : List (List Nat)) (wv : List Nat → List Nat × Nat),
      (∀ k ∈ keys, k ≠ []) → ¬keys.Nodup →
      (∀ k ∈ keys, (wv k).2 = (wv k).1.length) →
      (archiveOf ((keys.map fun k => (wv k).1).flatten)
        ((entriesExact keys wv 0).mergeSort entryLe)).length ≤ maxInt64 →
      Write keys wv = .error .duplicateKey) ∧
    (∀ (k v1 v2 : List Nat),
      v1.length + v2.length +
        (indexRegion ([⟨k, 0, v1.length, []⟩,
          ⟨k, v1.length, v2.length, []⟩].mergeSort entryLe)).length ≤ 2 ^ 64 - 1 →
      (WriterWriteValue NewWriter k v1).2 = none ∧
      (WriterWriteValue (WriterWriteValue NewWriter k v1).1 k v2).2 = none ∧
      (WriterClose
        (WriterWriteValue (WriterWriteValue NewWriter k v1).1 k v2).1).2 =
        some .duplicateKey) := by
  constructor
  · intro keys wv hne hdup hh hfs
    have hm64 : maxInt64 = 2 ^ 63 - 1 := rfl
    rw [pow63Simple] at hm64
    have hkeys0 : (entriesExact keys wv 0).map IndexEntry.key = keys :=
      keys_entriesExact keys wv 0
    have hlenA : (archiveOf ((keys.map fun k => (wv k).1).flatten)
        ((entriesExact keys wv 0).mergeSort entryLe)).length =
        ((keys.map fun k => (wv k).1).flatten).length +
        (indexRegion ((entriesExact keys wv 0).mergeSort entryLe)).length +
        8 * (((entriesExact keys wv 0).mergeSort entryLe).length + 1) := by
      simp only [archiveOf, List.length_append, length_posTable, posList_length]
      omega
    have hchainF : chainOk none ((entriesExact keys wv 0).mergeSort entryLe) =
        false := by
      refine chainOk_eq_false_of_dup _
        (List.sorted_mergeSort entryLe_trans entryLe_total _) ?_ none
      intro hnodup
      refine hdup ?_
      rw [← hkeys0]
      exact (((List.mergeSort_perm (entriesExact keys wv 0) entryLe).map
        IndexEntry.key).nodup_iff).mp hnodup
    unfold Write WriteIterator
    rw [WriteIteratorLoop_exact keys wv 0 hne hh (by rw [pow64Lit]; omega)]
    simp only [Nat.zero_add]
    rw [WriteIndex_dup (entriesExact keys wv 0)
      ((keys.map fun k => (wv k).1).flatten).length hchainF
      (by rw [pow64Lit]; omega)]
  · intro k v1 v2 hb
    have hp64 : (2 : Nat) ^ 64 = 18446744073709551616 := pow64Lit
    have s1 : WriterWriteValue NewWriter k v1 =
        (⟨v1, [⟨k, 0, v1.length, []⟩], v1.length, false⟩, none) := by
      unfold WriterWriteValue NewWriter
      simp only
      rw [if_neg (by omega : ¬(0 : Nat) > 2 ^ 64 - 1 - v1.length)]
      simp only [Bool.false_eq_true, if_false, List.nil_append, Nat.zero_add]
    have s2 : WriterWriteValue ⟨v1, [⟨k, 0, v1.length, []⟩], v1.length, false⟩ k v2 =
        (⟨v1 ++ v2, [⟨k, 0, v1.length, []⟩, ⟨k, v1.length, v2.length, []⟩],
          v1.length + v2.length, false⟩, none) := by
      unfold WriterWriteValue
      simp only
      rw [if_neg (by omega : ¬v1.length > 2 ^ 64 - 1 - v2.length)]
      simp only [Bool.false_eq_true, if_false, List.cons_append, List.nil_append]
    have hchainF : chainOk none
        (([⟨k, 0, v1.length, []⟩, ⟨k, v1.length, v2.length, []⟩] :
          List IndexEntry).mergeSort entryLe) = false := by
      refine chainOk_eq_false_of_dup _
        (List.sorted_mergeSort entryLe_trans entryLe_total _) ?_ none
      intro hnodup
      have := (((List.mergeSort_perm
        ([⟨k, 0, v1.length, []⟩, ⟨k, v1.length, v2.length, []⟩] :
          List IndexEntry) entryLe).map IndexEntry.key).nodup_iff).mp hnodup
      simp at this
    have s3 : WriteIndex [⟨k, 0, v1.length, []⟩, ⟨k, v1.length, v2.length, []⟩]
        (v1.length + v2.length) = .error .duplicateKey :=
      WriteIndex_dup _ _ hchainF (by omega)
    rw [s1]
    simp only
    rw [s2]
    simp only
    refine ⟨trivial, trivial, ?_⟩
    unfold WriterClose
    simp only [Bool.false_eq_true, if_false]
    rw [s3]

/-- Witness for C9 (amended): a concrete duplicated key in each mode. -/
theorem claim_C9_witness :
    Write [[97], [97]] (fun k => (k, k.length)) = .error .duplicateKey ∧
    (WriterClose
      (WriterWriteValue (WriterWriteValue NewWriter [97] [7]).1 [97] [8]).1).2 =
      some .duplicateKey := by
  constructor
  · exact (claim_C9.1 [[97], [97]] (fun k => (k, k.length)) (by decide) (by decide)
      (by decide)
      (by simp +decide [archiveOf, entriesExact, List.mergeSort, List.merge,
        Function.comp, entryLe, bytesCompare, indexRegion, framedEntry,
        IndexEntry.marshalVT, appendVarint_small, posList, posTable, putUint64LE,
        maxInt64]))
  · exact (claim_C9.2 [97] [7] [8]
      (by simp +decide [List.mergeSort, List.merge, Function.comp, entryLe,
        bytesCompare, indexRegion, framedEntry, IndexEntry.marshalVT,
        appendVarint_small, pow64Lit])).2.2

/-- Value-end derivation of the earliest revision's
`Reader.GetValuePosition` (src/unnamed/part_006): the value of entry
`indexEntryIdx` ends at the next entry's offset, or at the first index
entry (`indexEntryListPos`) for the last entry. -/
def legacyValueEnd (file : List Nat) (r : ReaderState) (indexEntryIdx : Nat) :
    Except KvError Int :=
  if indexEntryIdx + 1 ≥ r.indexEntryCount then .ok (r.indexEntryListPos : Int)
  else match ReadIndexEntry file r (indexEntryIdx + 1) with
    | .error e => .error e
    | .ok next =>
      if (next.offset : Int) > (r.indexEntryListPos : Int) then
        .error .valueOutOfBounds
      else .ok (next.offset : Int)

/-- Resolution step of the legacy `Reader.GetValuePosition`
(src/unnamed/part_006) after the entry has been found: the length is
DERIVED as `valueEnd - offset` — the entry's `size` field does not exist
in that revision.  The `errors.Errorf` failures are mapped onto the
nearest `KvError`s. -/
def GetValuePositionLegacyResolve (file : List Nat) (r : ReaderState)
    (indexEntry : IndexEntry) (indexEntryIdx : Nat) : Except KvError (Int × Int) :=
  match legacyValueEnd file r indexEntryIdx with
  | .error e => .error e
  | .ok valueEnd =>
    if (indexEntry.offset : Int) > valueEnd then .error .offsetBeyondEntry
    else
      if valueEnd - (indexEntry.offset : Int) > (legacyMaxValueSize : Int) then
        .error .valueTooLarge
      else .ok ((indexEntry.offset : Int), valueEnd - (indexEntry.offset : Int))

/-- C3 (amended): the CURRENT reader does not derive value lengths.
`GetValuePositionWithEntry` always resolves `length = entry.size` — a
zero (absent) `size` yields length 0 regardless of the neighbouring
entries or of `indexEntryListPos`.  The `next_entry.offset - offset` /
`index_start - offset` derivation is the legacy revision's
(`GetValuePositionLegacyResolve`): on a reader whose entries read back
as `es`, it derives exactly those lengths. -/
theorem claim_C3 (file : List Nat) (r : ReaderState) (es : List IndexEntry)
    (Hread : ∀ x (hx : x < es.length), ReadIndexEntry file r x = .ok es[x])
    (Hcount : r.indexEntryCount = es.length) :
    (∀ e : IndexEntry, e.size = 0 → e.offset ≤ r.indexEntryIndexesPos →
      r.indexEntryIndexesPos ≤ maxInt64 →
      GetValuePositionWithEntry r e = .ok ((e.offset : Int), 0)) ∧
    (∀ i (hi0 : i < es.length) (hi : i + 1 < es.length),
      (es[i + 1]).offset ≤ r.indexEntryListPos →
      (es[i]).offset ≤ (es[i + 1]).offset →
      ((es[i + 1]).offset : Int) - ((es[i]).offset : Int) ≤
        (legacyMaxValueSize : Int) →
      GetValuePositionLegacyResolve file r es[i] i =
        .ok (((es[i]).offset : Int),
          ((es[i + 1]).offset : Int) - ((es[i]).offset : Int))) ∧
    (∀ i (hi : i < es.length), i + 1 = es.length →
      (es[i]).offset ≤ r.indexEntryListPos →
      (r.indexEntryListPos : Int) - ((es[i]).offset : Int) ≤
        (legacyMaxValueSize : Int) →
      GetValuePositionLegacyResolve file r es[i] i =
        .ok (((es[i]).offset : Int),
          (r.indexEntryListPos : Int) - ((es[i]).offset : Int))) := by
  have hm64 : maxInt64 = 2 ^ 63 - 1 := rfl
  rw [pow63Simple] at hm64
  have hmvs : maxValueSize = 1000000000 := rfl
  have hlmvs : legacyMaxValueSize = 100000000 := rfl
  refine ⟨?_, ?_, ?_⟩
  · intro e hsz hoff hmax
    unfold GetValuePositionWithEntry
    rw [if_neg (by omega), if_neg (by omega), if_neg (by omega), if_neg (by omega),
      if_neg (by omega), if_neg (by omega), hsz]
    rfl
  · intro i hi0 hi hnext hle hvs
    unfold GetValuePositionLegacyResolve legacyValueEnd
    rw [Hcount, if_neg (by omega : ¬i + 1 ≥ es.length), Hread (i + 1) hi]
    simp only
    rw [if_neg (by omega : ¬((es[i + 1]).offset : Int) > (r.indexEntryListPos : Int))]
    simp only
    rw [if_neg (by omega), if_neg (by omega)]
  · intro i hi hlast hoff hvs
    unfold GetValuePositionLegacyResolve legacyValueEnd
    rw [Hcount, if_pos (by omega : i + 1 ≥ es.length)]
    simp only
    rw [if_neg (by omega), if_neg (by omega)]

/-- Counterexample to C3 as stated: on the current reader a size-absent
(zero) entry resolves to length 0, NOT to the derived
`index_start - offset` (10 here): the current revision does not support
the legacy derivation. -/
theorem claim_C3_counterexample :
    GetValuePositionWithEntry ⟨1, 16, 10⟩ ⟨[97], 0, 0, []⟩ = .ok (0, 0) ∧
    ((⟨1, 16, 10⟩ : ReaderState).indexEntryListPos : Int) -
      ((⟨[97], 0, 0, []⟩ : IndexEntry).offset : Int) = 10 ∧ (0 : Int) ≠ 10 := by
  refine ⟨?_, by decide, by decide⟩
  unfold GetValuePositionWithEntry
  rw [if_neg (by decide), if_neg (by decide), if_neg (by decide),
    if_neg (by decide), if_neg (by decide), if_neg (by decide)]
  rfl

/-- Witness for C3 (amended): a two-entry reader where the legacy
resolver derives the first value's length from the second offset. -/
theorem claim_C3_witness :
    GetValuePositionLegacyResolve
      (archiveOf [97, 98] [⟨[97], 0, 1, []⟩, ⟨[98], 1, 1, []⟩])
      ⟨2, 2 + (indexRegion [⟨[97], 0, 1, []⟩, ⟨[98], 1, 1, []⟩]).length, 2⟩
      ⟨[97], 0, 1, []⟩ 0 = .ok (0, 1 - 0) ∧
    GetValuePositionWithEntry ⟨0, 16, 10⟩ ⟨[98], 3, 0, []⟩ = .ok (3, 0) := by
  constructor
  · exact ((claim_C3 (archiveOf [97, 98] [⟨[97], 0, 1, []⟩, ⟨[98], 1, 1, []⟩])
      ⟨2, 2 + (indexRegion [⟨[97], 0, 1, []⟩, ⟨[98], 1, 1, []⟩]).length, 2⟩
      [⟨[97], 0, 1, []⟩, ⟨[98], 1, 1, []⟩]
      (ReadIndexEntry_archive [97, 98] [⟨[97], 0, 1, []⟩, ⟨[98], 1, 1, []⟩]
        (by simp [IndexEntry.sizeVT, sizeOfVarint_small, maxIndexEntrySize])
        (by decide) (by decide)
        (by norm_num [archiveOf, indexRegion, framedEntry, IndexEntry.marshalVT,
          appendVarint_small, posList, posTable, putUint64LE, maxInt64]))
      rfl).2.1 0 (by decide) (by decide) (by decide) (by decide) (by decide))
  · exact ((claim_C3 [] ⟨0, 16, 10⟩ [] (fun x hx => absurd hx (by simp)) rfl).1
      ⟨[98], 3, 0, []⟩ rfl (by decide) (by decide))

/-- C4 (amended): Value bounds rejection.  `GetValuePositionWithEntry`
rejects every declared length over `maxValueSize`, and rejects every
range with `offset + length` beyond `indexEntryIndexesPos` — the START
OF THE POSITIONS TABLE, not the first index-entry byte
(`indexEntryListPos`); within those bounds (and the table position
within `MaxInt64`) the entry resolves successfully. -/
theorem claim_C4 (r : ReaderState) (e : IndexEntry) :
    (e.size > maxValueSize →
      ∃ err, GetValuePositionWithEntry r e = .error err) ∧
    (e.offset + e.size > r.indexEntryIndexesPos →
      ∃ err, GetValuePositionWithEntry r e = .error err) ∧
    (e.size ≤ maxValueSize → e.offset + e.size ≤ r.indexEntryIndexesPos →
      r.indexEntryIndexesPos ≤ maxInt64 →
      GetValuePositionWithEntry r e = .ok ((e.offset : Int), (e.size : Int))) := by
  have hm64 : maxInt64 = 2 ^ 63 - 1 := rfl
  rw [pow63Simple] at hm64
  have hmvs : maxValueSize = 1000000000 := rfl
  refine ⟨?_, ?_, ?_⟩
  · intro h
    unfold GetValuePositionWithEntry
    split_ifs with h1 h2 h3 h4 h5 h6
    all_goals first | exact ⟨_, rfl⟩ | omega
  · intro h
    unfold GetValuePositionWithEntry
    split_ifs with h1 h2 h3 h4 h5 h6
    all_goals first | exact ⟨_, rfl⟩ | omega
  · intro h1 h2 h3
    unfold GetValuePositionWithEntry
    rw [if_neg (by omega), if_neg (by omega), if_neg (by omega), if_neg (by omega),
      if_neg (by omega), if_neg (by omega)]

/-- Counterexample to C4 as stated: with the positions table at 16 and
the first index entry at 10, an entry whose value range `[0, 12)` runs
past the first index-entry byte (10) is still accepted — the code checks
against the positions-table start (16), not the first index-entry
byte. -/
theorem claim_C4_counterexample :
    GetValuePositionWithEntry ⟨1, 16, 10⟩ ⟨[97], 0, 12, []⟩ = .ok (0, 12) ∧
    (⟨[97], 0, 12, []⟩ : IndexEntry).offset + (⟨[97], 0, 12, []⟩ : IndexEntry).size >
      (⟨1, 16, 10⟩ : ReaderState).indexEntryListPos := by
  refine ⟨?_, by decide⟩
  unfold GetValuePositionWithEntry
  rw [if_neg (by decide), if_neg (by decide), if_neg (by decide),
    if_neg (by decide), if_neg (by decide), if_neg (by decide)]
  rfl

/-- Witness for C4 (amended): an oversized value is rejected, an
out-of-range value is rejected, an in-range one resolves. -/
theorem claim_C4_witness :
    (∃ err, GetValuePositionWithEntry ⟨1, 16, 10⟩ ⟨[97], 0, 2000000000, []⟩ =
      .error err) ∧
    (∃ err, GetValuePositionWithEntry ⟨1, 16, 10⟩ ⟨[97], 10, 7, []⟩ =
      .error err) ∧
    GetValuePositionWithEntry ⟨1, 16, 10⟩ ⟨[97], 2, 14, []⟩ = .ok (2, 14) :=
  ⟨(claim_C4 ⟨1, 16, 10⟩ ⟨[97], 0, 2000000000, []⟩).1 (by decide),
   (claim_C4 ⟨1, 16, 10⟩ ⟨[97], 10, 7, []⟩).2.1 (by decide),
   (claim_C4 ⟨1, 16, 10⟩ ⟨[97], 2, 14, []⟩).2.2 (by decide) (by decide) (by decide)⟩

end Kvfile
